import Mathlib

/-!
Verification of the audit-trail core of the easyapplyai repository
(`app/hashing.py`, `app/audit.py`, `app/storage.py`, `app/cli_verify_audit.py`).

The embedding is byte-level and executable:

* bytes are `Nat` values below 256; `utf8` is `str.encode("utf-8")`;
* `sha256_bytes` is a full FIPS 180-4 SHA-256 (`hashlib.sha256(...).hexdigest()`),
  checked below against the standard test vectors;
* `PyVal` is the universe of Python values that reach `orjson.dumps`; `encodeV`
  is `orjson.dumps(..., option=orjson.OPT_SORT_KEYS)`: compact separators, keys
  sorted bytewise at every nesting level, minimal escapes, raw UTF-8 output.
  Following orjson's documented behaviour, the non-finite floats NaN/Infinity/
  -Infinity are serialized as `null`, and a value outside the serializable set
  (a set, a custom object, ...) raises `TypeError`, modelled as `Err.encoding`.
  A finite float is carried as `FloatRep`, the sign/digits/exponent parts of
  the shortest round-trip decimal representation that orjson's ryū-based
  formatter emits; shortest-round-trip printing puts finite IEEE-754 doubles
  in bijection with these representations, so `PyVal.float` ranges over
  exactly the finite floats and `encodeV` emits exactly their serialized
  bytes.  Duplicate keys cannot arise from Python dicts but the type does not
  forbid them;
* the stateful `AuditTrailAgent.log_event` is explicit state passing over
  `Agent` (the in-memory `_last_hash_by_run` cache) and `Sys` (the per-run
  `audit.jsonl` append files and the `audit` table of the sqlite store).
  The pydantic validation performed by `AuditEvent(**{...})` is modelled by
  `statusOk`: of the event's fields, only `status` (`Literal["ok","error"]`)
  can fail validation, since every other field is well-typed by construction;
  the `pydantic.ValidationError` it raises between the hash computation and
  the file write is `Err.validation`.  Python exceptions are modelled by
  `Except`: side effects performed before the raise are kept, as in the
  source.  Clock reads (`time.strftime`, `time.perf_counter_ns`) and sink
  availability are inputs via `Env`;
* the append file is modelled at the granularity the verifier sees after
  `json.loads` of each line: a list of parsed events.  On the value set that
  can appear in an event (null, bool, int, float, str, list, str-keyed dict),
  `json.loads` inverts `orjson.dumps`, so re-encoding a parsed line yields the
  persisted bytes and `verify_chain` over parsed events is faithful.
-/

set_option maxRecDepth 20000

namespace AuditCore

/-! ### Bytes and UTF-8 (`str.encode("utf-8")`) -/

/-- UTF-8 encoding of one character, as a list of bytes. -/
def utf8Char (c : Char) : List Nat :=
  let n := c.toNat
  if n < 128 then [n]
  else if n < 2048 then [192 + n / 64, 128 + n % 64]
  else if n < 65536 then [224 + n / 4096, 128 + n / 64 % 64, 128 + n % 64]
  else [240 + n / 262144, 128 + n / 4096 % 64, 128 + n / 64 % 64, 128 + n % 64]

/-- UTF-8 encoding of a string: `s.encode("utf-8")`. -/
def utf8 (s : String) : List Nat :=
  (s.data.map utf8Char).flatten

/-! ### SHA-256 (FIPS 180-4), words as `Nat` reduced mod 2^32 -/

def w32 (n : Nat) : Nat := n % 4294967296

def rotr (n x : Nat) : Nat := w32 (x / 2 ^ n + x % 2 ^ n * 2 ^ (32 - n))

def bigS0 (x : Nat) : Nat := rotr 2 x ^^^ rotr 13 x ^^^ rotr 22 x
def bigS1 (x : Nat) : Nat := rotr 6 x ^^^ rotr 11 x ^^^ rotr 25 x
def smallS0 (x : Nat) : Nat := rotr 7 x ^^^ rotr 18 x ^^^ x / 8
def smallS1 (x : Nat) : Nat := rotr 17 x ^^^ rotr 19 x ^^^ x / 1024

def shaK : List Nat :=
  [1116352408, 1899447441, 3049323471, 3921009573, 961987163, 1508970993, 2453635748, 2870763221,
   3624381080, 310598401, 607225278, 1426881987, 1925078388, 2162078206, 2614888103, 3248222580,
   3835390401, 4022224774, 264347078, 604807628, 770255983, 1249150122, 1555081692, 1996064986,
   2554220882, 2821834349, 2952996808, 3210313671, 3336571891, 3584528711, 113926993, 338241895,
   666307205, 773529912, 1294757372, 1396182291, 1695183700, 1986661051, 2177026350, 2456956037,
   2730485921, 2820302411, 3259730800, 3345764771, 3516065817, 3600352804, 4094571909, 275423344,
   430227734, 506948616, 659060556, 883997877, 958139571, 1322822218, 1537002063, 1747873779,
   1955562222, 2024104815, 2227730452, 2361852424, 2428436474, 2756734187, 3204031479, 3329325298]

/-- Big-endian 64-bit length field of the padding. -/
def be64 (n : Nat) : List Nat :=
  [n / 2 ^ 56 % 256, n / 2 ^ 48 % 256, n / 2 ^ 40 % 256, n / 2 ^ 32 % 256,
   n / 2 ^ 24 % 256, n / 2 ^ 16 % 256, n / 2 ^ 8 % 256, n % 256]

def sha256Pad (msg : List Nat) : List Nat :=
  msg ++ 128 :: (List.replicate ((64 - (msg.length + 9) % 64) % 64) 0 ++ be64 (msg.length * 8))

/-- Group bytes into 32-bit big-endian words. -/
def toWords : List Nat → List Nat
  | a :: b :: c :: d :: rest => (((a * 256 + b) * 256 + c) * 256 + d) :: toWords rest
  | _ => []

/-- Group a word list into blocks of 16 words. -/
def toBlocks : List Nat → List (List Nat)
  | w0 :: w1 :: w2 :: w3 :: w4 :: w5 :: w6 :: w7 :: w8 :: w9 :: w10 :: w11 :: w12 :: w13 :: w14 :: w15 :: rest =>
      [w0, w1, w2, w3, w4, w5, w6, w7, w8, w9, w10, w11, w12, w13, w14, w15] :: toBlocks rest
  | _ => []

/-- Extend the 16-word schedule to 64 words; `w` holds the words most recent first. -/
def extendW : Nat → List Nat → List Nat
  | 0, w => w
  | f + 1, w =>
      let nw := w32 (smallS1 (w.getD 1 0) + w.getD 6 0 + smallS0 (w.getD 14 0) + w.getD 15 0)
      extendW f (nw :: w)

def schedule (block : List Nat) : List Nat :=
  (extendW 48 block.reverse).reverse

structure Digest8 where
  a : Nat
  b : Nat
  c : Nat
  d : Nat
  e : Nat
  f : Nat
  g : Nat
  h : Nat

/-- One compression round: `Ch`/`Maj`/`Σ0`/`Σ1` and the working-variable rotation. -/
def round1 (kw : Nat × Nat) (s : Digest8) : Digest8 :=
  let t1 := w32 (s.h + bigS1 s.e + ((s.e &&& s.f) ^^^ ((s.e ^^^ 4294967295) &&& s.g)) + kw.1 + kw.2)
  let t2 := w32 (bigS0 s.a + ((s.a &&& s.b) ^^^ (s.a &&& s.c) ^^^ (s.b &&& s.c)))
  ⟨w32 (t1 + t2), s.a, s.b, s.c, w32 (s.d + t1), s.e, s.f, s.g⟩

def compress (st : Digest8) (block : List Nat) : Digest8 :=
  let fin := (shaK.zip (schedule block)).foldl (fun s kw => round1 kw s) st
  ⟨w32 (st.a + fin.a), w32 (st.b + fin.b), w32 (st.c + fin.c), w32 (st.d + fin.d),
   w32 (st.e + fin.e), w32 (st.f + fin.f), w32 (st.g + fin.g), w32 (st.h + fin.h)⟩

def sha256Words (msg : List Nat) : Digest8 :=
  (toBlocks (toWords (sha256Pad msg))).foldl compress
    ⟨1779033703, 3144134277, 1013904242, 2773480762, 1359893119, 2600822924, 528734635, 1541459225⟩

/-- Lowercase hexadecimal digit. -/
def hexDigitChar (n : Nat) : Char :=
  if n < 10 then Char.ofNat (48 + n) else Char.ofNat (87 + n)

def hexWord (w : Nat) : List Char :=
  [hexDigitChar (w / 2 ^ 28 % 16), hexDigitChar (w / 2 ^ 24 % 16), hexDigitChar (w / 2 ^ 20 % 16),
   hexDigitChar (w / 2 ^ 16 % 16), hexDigitChar (w / 2 ^ 12 % 16), hexDigitChar (w / 2 ^ 8 % 16),
   hexDigitChar (w / 2 ^ 4 % 16), hexDigitChar (w % 16)]

/-- `hashing.sha256_bytes`: lowercase-hex SHA-256 digest of a byte sequence. -/
def sha256_bytes (msg : List Nat) : String :=
  let d := sha256Words msg
  String.mk (hexWord d.a ++ hexWord d.b ++ hexWord d.c ++ hexWord d.d ++
             hexWord d.e ++ hexWord d.f ++ hexWord d.g ++ hexWord d.h)

/-! ### Python values and `orjson.dumps(..., OPT_SORT_KEYS)` -/

def isDigitB (b : Nat) : Bool := 48 ≤ b && b ≤ 57

/-- A finite Python float, carried as the parts of the shortest round-trip
decimal representation that orjson's ryū-based formatter prints: sign, integer
part digits (bytes), fraction digits (`[]` = no `.` part), exponent sign and
exponent digits (`[]` = no `e` part).  Shortest round-trip printing makes this
representation one-to-one with finite IEEE-754 doubles. -/
structure FloatRep where
  neg : Bool
  ip : List Nat
  frac : List Nat
  eneg : Bool
  ex : List Nat
deriving DecidableEq

def allDigitsB (l : List Nat) : Bool := l.all isDigitB

/-- A printed integer part: nonempty digits, no leading zero unless it is the
single digit `0`. -/
def ipOkB : List Nat → Bool
  | [] => false
  | b :: r => isDigitB b && allDigitsB r && (decide (b ≠ 48) || decide (r = []))

/-- A printed exponent: nonempty digits without a leading zero (the formatter
only uses e-notation for a nonzero decimal exponent). -/
def expOkB : List Nat → Bool
  | [] => false
  | b :: r => isDigitB b && allDigitsB r && decide (b ≠ 48)

/-- The shapes the float formatter emits: a well-formed integer part; digit
fraction and exponent parts; at least one of `.`/`e` present (so a float never
prints as an integer literal); no exponent sign without an exponent. -/
def floatOk (fr : FloatRep) : Bool :=
  ipOkB fr.ip && allDigitsB fr.frac &&
  (!decide (fr.frac = []) || !decide (fr.ex = [])) &&
  (decide (fr.ex = []) && !fr.eneg || expOkB fr.ex)

/-- The serialized bytes of a finite float: `-` sign, integer digits, `.` and
fraction digits when present, `e`, exponent sign and exponent digits when
present (orjson writes `1.5`, `0.0001`, `1e16`, `1.5e-7`, ...). -/
def renderFloat (fr : FloatRep) : List Nat :=
  (if fr.neg then [45] else []) ++ fr.ip ++
  (if fr.frac = [] then [] else 46 :: fr.frac) ++
  (if fr.ex = [] then [] else 101 :: ((if fr.eneg then [45] else []) ++ fr.ex))

mutual
/-- A Python value as `orjson.dumps` classifies it.  `float` is a finite float
(see `FloatRep`); `nanVal`/`infVal`/`negInfVal` are the non-finite floats
(serialized as `null` by orjson); `unsupported` is any value outside orjson's
serializable set (raises `TypeError`). -/
inductive PyVal : Type
  | null
  | bool (b : Bool)
  | int (n : Int)
  | float (fr : FloatRep)
  | str (s : String)
  | list (xs : PyList)
  | dict (kvs : PyFields)
  | nanVal
  | infVal
  | negInfVal
  | unsupported (tag : String)
deriving DecidableEq
inductive PyList : Type
  | nil
  | cons (v : PyVal) (t : PyList)
deriving DecidableEq
inductive PyFields : Type
  | nil
  | cons (k : String) (v : PyVal) (t : PyFields)
deriving DecidableEq
end

/-- The exceptions that can surface from the audit core: `orjson` `TypeError`
during encoding, `pydantic.ValidationError` from the `AuditEvent` constructor,
a failing store read while resolving the previous hash, a failing append-file
write, a failing store write. -/
inductive Err : Type
  | encoding
  | validation
  | recovery
  | fileWrite
  | dbWrite
deriving DecidableEq

/-- Decimal digits of `n` prepended to `acc`; fuel-structural so that the kernel
can evaluate it (`fuel ≥ n` always holds at the call site `natDec`). -/
def natDecAux : Nat → Nat → List Nat → List Nat
  | 0, n, acc => (48 + n % 10) :: acc
  | fuel + 1, n, acc => if n < 10 then (48 + n) :: acc else natDecAux fuel (n / 10) ((48 + n % 10) :: acc)

/-- Decimal byte representation of a natural number. -/
def natDec (n : Nat) : List Nat := natDecAux n n []

/-- Decimal byte representation of an integer, as orjson serializes Python ints. -/
def intDec (n : Int) : List Nat :=
  (if n < 0 then [45] else []) ++ natDec n.natAbs

def hexDigitByte (n : Nat) : Nat := if n < 10 then 48 + n else 87 + n

/-- JSON escaping of one character, orjson style: `\"` `\\` and the control
shortcuts `\b \t \n \f \r`, `\u00XX` for the remaining control characters,
everything else raw UTF-8. -/
def escByte (c : Char) : List Nat :=
  let n := c.toNat
  if n = 34 then [92, 34]
  else if n = 92 then [92, 92]
  else if n = 8 then [92, 98]
  else if n = 9 then [92, 116]
  else if n = 10 then [92, 110]
  else if n = 12 then [92, 102]
  else if n = 13 then [92, 114]
  else if n < 32 then [92, 117, 48, 48, hexDigitByte (n / 16), hexDigitByte (n % 16)]
  else utf8Char c

/-- A JSON string literal: quote, escaped body, quote. -/
def strBytes (s : String) : List Nat :=
  34 :: ((s.data.map escByte).flatten ++ [34])

/-- Bytewise lexicographic order on byte lists (how orjson compares keys). -/
def bytesLe : List Nat → List Nat → Bool
  | [], _ => true
  | _ :: _, [] => false
  | x :: xs, y :: ys => if x < y then true else if x = y then bytesLe xs ys else false

/-- Strict bytewise lexicographic order. -/
def bytesLt : List Nat → List Nat → Bool
  | [], [] => false
  | [], _ :: _ => true
  | _ :: _, [] => false
  | x :: xs, y :: ys => if x < y then true else if x = y then bytesLt xs ys else false

def keyLe (a b : String) : Bool := bytesLe (utf8 a) (utf8 b)

def keyLt (a b : String) : Bool := bytesLt (utf8 a) (utf8 b)

def insertField (p : String × List Nat) : List (String × List Nat) → List (String × List Nat)
  | [] => [p]
  | q :: r => if keyLe p.1 q.1 then p :: q :: r else q :: insertField p r

/-- Insertion sort of encoded members by key: `OPT_SORT_KEYS`. -/
def sortFields (l : List (String × List Nat)) : List (String × List Nat) :=
  l.foldr insertField []

/-- Comma-join a list of rendered items. -/
def sepComma : List (List Nat) → List Nat
  | [] => []
  | [b] => b
  | b :: r => b ++ 44 :: sepComma r

def renderFields (ps : List (String × List Nat)) : List Nat :=
  sepComma (ps.map fun p => strBytes p.1 ++ 58 :: p.2)

mutual
/-- `orjson.dumps(v, option=orjson.OPT_SORT_KEYS)`: compact separators, dict
keys sorted bytewise at every level (members are encoded first, then sorted by
key, which yields the same bytes as sorting before encoding). -/
def encodeV : PyVal → Except Err (List Nat)
  | .null => .ok [110, 117, 108, 108]
  | .bool true => .ok [116, 114, 117, 101]
  | .bool false => .ok [102, 97, 108, 115, 101]
  | .int n => .ok (intDec n)
  | .float fr => .ok (renderFloat fr)
  | .str s => .ok (strBytes s)
  | .list xs =>
      match encodeL xs with
      | .error e => .error e
      | .ok bs => .ok (91 :: (sepComma bs ++ [93]))
  | .dict kvs =>
      match encodeF kvs with
      | .error e => .error e
      | .ok ps => .ok (123 :: (renderFields (sortFields ps) ++ [125]))
  | .nanVal => .ok [110, 117, 108, 108]
  | .infVal => .ok [110, 117, 108, 108]
  | .negInfVal => .ok [110, 117, 108, 108]
  | .unsupported _ => .error .encoding
def encodeL : PyList → Except Err (List (List Nat))
  | .nil => .ok []
  | .cons v t =>
      match encodeV v with
      | .error e => .error e
      | .ok b =>
          match encodeL t with
          | .error e => .error e
          | .ok r => .ok (b :: r)
def encodeF : PyFields → Except Err (List (String × List Nat))
  | .nil => .ok []
  | .cons k v t =>
      match encodeV v with
      | .error e => .error e
      | .ok b =>
          match encodeF t with
          | .error e => .error e
          | .ok r => .ok ((k, b) :: r)
end

mutual
/-- JSON-representable: the value sets `json.loads` can produce and the spec's
supported canonical type set (no non-finite floats, nothing unserializable). -/
def repV : PyVal → Bool
  | .null => true
  | .bool _ => true
  | .int _ => true
  | .float fr => floatOk fr
  | .str _ => true
  | .list xs => repL xs
  | .dict kvs => repF kvs
  | .nanVal => false
  | .infVal => false
  | .negInfVal => false
  | .unsupported _ => false
def repL : PyList → Bool
  | .nil => true
  | .cons v t => repV v && repL t
def repF : PyFields → Bool
  | .nil => true
  | .cons _ v t => repV v && repF t
end

mutual
/-- Canonical representative of a Python value: JSON-representable and every
dict strictly key-sorted (Python dicts have unique keys and no semantic order,
so these are one-per-value representatives of the supported set). -/
def canonV : PyVal → Bool
  | .null => true
  | .bool _ => true
  | .int _ => true
  | .float fr => floatOk fr
  | .str _ => true
  | .list xs => canonL xs
  | .dict kvs => canonF kvs
  | .nanVal => false
  | .infVal => false
  | .negInfVal => false
  | .unsupported _ => false
def canonL : PyList → Bool
  | .nil => true
  | .cons v t => canonV v && canonL t
def canonF : PyFields → Bool
  | .nil => true
  | .cons k v t =>
      canonV v && canonF t &&
      (match t with
       | .nil => true
       | .cons k2 _ _ => keyLt k k2)
end

mutual
/-- Does the value contain a constituent outside orjson's serializable set? -/
def hasUnsupportedV : PyVal → Bool
  | .unsupported _ => true
  | .list xs => hasUnsupportedL xs
  | .dict kvs => hasUnsupportedF kvs
  | _ => false
def hasUnsupportedL : PyList → Bool
  | .nil => false
  | .cons v t => hasUnsupportedV v || hasUnsupportedL t
def hasUnsupportedF : PyFields → Bool
  | .nil => false
  | .cons _ v t => hasUnsupportedV v || hasUnsupportedF t
end

/-! ### `hashing.chain_next` -/

/-- `hashing.chain_next(prev_hash, payload)`: serialize the payload with sorted
keys and return `sha256(prev_hash.encode("utf-8") + payload_bytes).hexdigest()`.
(The `prev_hash is None` coercion branch of the source is unreachable here
because `prev_hash` is typed as a string; the `TypeError` raised by
`orjson.dumps` on an unserializable payload is `Err.encoding`.) -/
def chain_next (prev_hash : String) (payload : PyVal) : Except Err String :=
  match encodeV payload with
  | .error e => .error e
  | .ok payload_bytes => .ok (sha256_bytes (utf8 prev_hash ++ payload_bytes))

/-! ### `schemas.AuditEvent` and the event payload -/

/-- `schemas.AuditEvent`.  `status` is the literal `"ok" | "error"` in the
source; claims only instantiate it with those. `details` is the caller's
string-keyed dict. -/
structure AuditEvent where
  run_id : String
  step : String
  status : String
  ts_iso : String
  ts_ns : Int
  input_digest : Option String
  output_digest : Option String
  artifact_paths : List String
  details : PyFields
  prev_event_hash : String
  event_hash : String
deriving DecidableEq

def optStr : Option String → PyVal
  | none => .null
  | some s => .str s

def pyStrList : List String → PyList
  | [] => .nil
  | s :: r => .cons (.str s) (pyStrList r)

/-- The `event_dict` built by `log_event` (and recomputed by the verifier from
a parsed line): every `AuditEvent` field except `event_hash`, including
`prev_event_hash`.  Written in the source's literal order; `encodeV` sorts. -/
def eventDict (run_id step status ts_iso : String) (ts_ns : Int)
    (input_digest output_digest : Option String) (artifact_paths : List String)
    (details : PyFields) (prev : String) : PyVal :=
  .dict (.cons "run_id" (.str run_id)
        (.cons "step" (.str step)
        (.cons "status" (.str status)
        (.cons "ts_iso" (.str ts_iso)
        (.cons "ts_ns" (.int ts_ns)
        (.cons "input_digest" (optStr input_digest)
        (.cons "output_digest" (optStr output_digest)
        (.cons "artifact_paths" (.list (pyStrList artifact_paths))
        (.cons "details" (.dict details)
        (.cons "prev_event_hash" (.str prev) .nil))))))))))

/-- The payload of an event: all its fields except `event_hash` itself
(`{k: ev[k] for k in ev.keys() if k != "event_hash"}` in the verifier). -/
def payloadOf (e : AuditEvent) : PyVal :=
  eventDict e.run_id e.step e.status e.ts_iso e.ts_ns e.input_digest e.output_digest
    e.artifact_paths e.details e.prev_event_hash

/-! ### `storage.py`: the `audit` table and its helpers -/

/-- One row of the `audit` table (`storage.Audit`), without the autoincrement id. -/
structure AuditRow where
  run_id : String
  step : String
  status : String
  ts_iso : String
  ts_ns : Int
  input_digest : Option String
  output_digest : Option String
  prev_event_hash : String
  event_hash : String
  details_json : List Nat
deriving DecidableEq

/-- `orjson.dumps(event.details, option=orjson.OPT_SORT_KEYS)` for the row's
`details_json` column; `log_event` only stores events whose details were
already serialized by `chain_next`, so the error fallback is unreachable. -/
def detailsJson (d : PyFields) : List Nat :=
  match encodeV (.dict d) with
  | .ok b => b
  | .error _ => []

def rowOf (e : AuditEvent) : AuditRow :=
  ⟨e.run_id, e.step, e.status, e.ts_iso, e.ts_ns, e.input_digest, e.output_digest,
   e.prev_event_hash, e.event_hash, detailsJson e.details⟩

/-- The `audit` table: rows tagged with their autoincrement primary key, plus
the next key to assign.  Sqlite assigns ids in insertion order. -/
structure DBState where
  rows : List (Nat × AuditRow)
  nextId : Nat
deriving DecidableEq

/-- `storage.append_audit`: insert a row; the engine assigns the next id. -/
def append_audit (db : DBState) (e : AuditEvent) : DBState :=
  ⟨db.rows ++ [(db.nextId, rowOf e)], db.nextId + 1⟩

/-- `SELECT ... ORDER BY id DESC LIMIT 1`: the matching row with the greatest id. -/
def maxByIdAux (best : Option (Nat × AuditRow)) : List (Nat × AuditRow) → Option (Nat × AuditRow)
  | [] => best
  | r :: rest =>
      maxByIdAux
        (match best with
         | none => some r
         | some b => if b.1 < r.1 then some r else some b) rest

/-- `storage.get_last_audit_hash(run_id)`: `event_hash` of the row for `run_id`
with the greatest internal id, or `None`. -/
def get_last_audit_hash (db : DBState) (run_id : String) : Option String :=
  (maxByIdAux none (db.rows.filter (fun r => r.2.run_id = run_id))).map (fun r => r.2.event_hash)

/-- Well-formedness the sqlite engine maintains: ids strictly ascending in
insertion order. -/
def rowsAsc : List (Nat × AuditRow) → Bool
  | [] => true
  | [_] => true
  | r1 :: r2 :: rest => decide (r1.1 < r2.1) && rowsAsc (r2 :: rest)

def wfDB (db : DBState) : Bool :=
  rowsAsc db.rows && db.rows.all (fun r => r.1 < db.nextId)

/-- The rows for one run, in append order, ids stripped. -/
def rowsDataFor (db : DBState) (run_id : String) : List AuditRow :=
  (db.rows.filter (fun r => r.2.run_id = run_id)).map (fun r => r.2)

/-! ### `audit.AuditTrailAgent` -/

/-- The agent's only state: the `_last_hash_by_run` in-memory dict. -/
structure Agent where
  last_hash_by_run : List (String × String)
deriving DecidableEq

/-- Association-list lookup (Python `dict` access). -/
def alookup : List (String × String) → String → Option String
  | [], _ => none
  | p :: rest, k => if p.1 = k then some p.2 else alookup rest k

/-- Association-list update (Python `dict` assignment). -/
def aset : List (String × String) → String → String → List (String × String)
  | [], k, v => [(k, v)]
  | p :: rest, k, v => if p.1 = k then (k, v) :: rest else p :: aset rest k v

/-- The world outside the agent: one parsed `audit.jsonl` per run directory,
and the sqlite store. -/
structure Sys where
  files : List (String × List AuditEvent)
  db : DBState
deriving DecidableEq

def flookup : List (String × List AuditEvent) → String → Option (List AuditEvent)
  | [], _ => none
  | p :: rest, k => if p.1 = k then some p.2 else flookup rest k

/-- Append one line to `artifacts/<run_id>/audit.jsonl` (created on first write). -/
def fappend (files : List (String × List AuditEvent)) (run_id : String) (e : AuditEvent) :
    List (String × List AuditEvent) :=
  match files with
  | [] => [(run_id, [e])]
  | p :: rest => if p.1 = run_id then (p.1, p.2 ++ [e]) :: rest else p :: fappend rest run_id e

/-- The parsed contents of the append file for one run (empty if absent). -/
def fileFor (s : Sys) (run_id : String) : List AuditEvent :=
  (flookup s.files run_id).getD []

/-- Inputs `log_event` reads from the environment: the two clock stamps, and
whether the store read, the file append and the store write succeed on this
call (a `False` flag models the corresponding `OSError`/database error). -/
structure Env where
  ts_iso : String
  ts_ns : Int
  dbRead : Bool
  fileWrite : Bool
  dbWrite : Bool
deriving DecidableEq

/-- The arguments of `AuditTrailAgent.log_event`, exactly as in its signature
(`artifact_paths=None` becomes `[]` inside). -/
structure LogArgs where
  run_id : String
  step : String
  status : String
  details : PyFields
  input_digest : Option String
  output_digest : Option String
  artifact_paths : Option (List String)
deriving DecidableEq

/-- `AuditTrailAgent._resolve_prev_hash`: the in-memory map first, else recover
from the store (`last or ""`); an unreachable store is the fatal
`Err.recovery`. -/
def resolve_prev_hash (env : Env) (ag : Agent) (s : Sys) (run_id : String) :
    Except Err String :=
  match alookup ag.last_hash_by_run run_id with
  | some h => .ok h
  | none =>
      if env.dbRead then .ok ((get_last_audit_hash s.db run_id).getD "") else .error .recovery

/-- The pydantic validation of `AuditEvent(**{...})` (`schemas.AuditEvent`):
`status` must be the literal `"ok"` or `"error"`.  Every other field of the
constructed dict is well-typed by construction (`str`, `int`, `Optional[str]`,
`List[str]`, and `details: Dict[str, Any]` accepts anything), so `status` is
the only field whose validation can fail. -/
def statusOk (st : String) : Bool := decide (st = "ok") || decide (st = "error")

/-- `AuditTrailAgent.log_event`.  Mirrors the source's order: resolve the
previous hash, build the event dict (all fields except `event_hash`,
including `prev_event_hash`), compute `event_hash` with `chain_next`,
construct the pydantic `AuditEvent` (which validates `status` and raises
`ValidationError` before any write), append the full event to `audit.jsonl`,
insert the row into the store, and only then update the in-memory cache and
return the event.  An exception at any point keeps the effects already
performed (the file append survives a store-write failure) and leaves the
rest untouched. -/
def log_event (env : Env) (a : LogArgs) (ag : Agent) (s : Sys) :
    Except Err AuditEvent × Agent × Sys :=
  let artifact_paths := a.artifact_paths.getD []
  match resolve_prev_hash env ag s a.run_id with
  | .error e => (.error e, ag, s)
  | .ok prev_hash =>
      match chain_next prev_hash
          (eventDict a.run_id a.step a.status env.ts_iso env.ts_ns a.input_digest
            a.output_digest artifact_paths a.details prev_hash) with
      | .error e => (.error e, ag, s)
      | .ok event_hash =>
          if statusOk a.status then
            let event_full : AuditEvent :=
              ⟨a.run_id, a.step, a.status, env.ts_iso, env.ts_ns, a.input_digest,
               a.output_digest, artifact_paths, a.details, prev_hash, event_hash⟩
            if env.fileWrite then
              let s1 : Sys := ⟨fappend s.files a.run_id event_full, s.db⟩
              if env.dbWrite then
                let s2 : Sys := ⟨s1.files, append_audit s1.db event_full⟩
                let ag2 : Agent := ⟨aset ag.last_hash_by_run a.run_id event_hash⟩
                (.ok event_full, ag2, s2)
              else (.error .dbWrite, ag, s1)
            else (.error .fileWrite, ag, s)
          else (.error .validation, ag, s)

/-- One `log_event` call in a sequence: its clock/failure environment and its
arguments. -/
structure CallIn where
  env : Env
  args : LogArgs
deriving DecidableEq

/-- Run a sequence of `log_event` calls, threading the agent and the world;
each outcome is tagged with the call's `run_id`. -/
def runSeq : List CallIn → Agent → Sys →
    (List (String × Except Err AuditEvent) × Agent × Sys)
  | [], ag, s => ([], ag, s)
  | c :: rest, ag, s =>
      match log_event c.env c.args ag s with
      | (r, ag1, s1) =>
          match runSeq rest ag1 s1 with
          | (rs, ag2, s2) => ((c.args.run_id, r) :: rs, ag2, s2)

/-- The events a run of calls returned (failed calls return none). -/
def okEventsOf (rs : List (String × Except Err AuditEvent)) : List AuditEvent :=
  rs.filterMap (fun p => match p.2 with | .ok e => some e | .error _ => none)

/-- The events returned for the calls of one run_id. -/
def eventsFor (run_id : String) (rs : List (String × Except Err AuditEvent)) :
    List AuditEvent :=
  rs.filterMap (fun p =>
    if p.1 = run_id then (match p.2 with | .ok e => some e | .error _ => none) else none)

/-- A call with a working environment, addressed to `run_id`, whose details
orjson can serialize and whose `status` passes pydantic validation: the
premise under which `log_event` succeeds. -/
def goodCall (run_id : String) (c : CallIn) : Bool :=
  decide (c.args.run_id = run_id) && repF c.args.details &&
    c.env.dbRead && c.env.fileWrite && c.env.dbWrite && statusOk c.args.status

def isOkE (r : Except Err AuditEvent) : Bool :=
  match r with
  | .ok _ => true
  | .error _ => false

/-! ### `cli_verify_audit.verify_chain` -/

/-- The verifier's structured result `{run_id, events, valid, break_index}`. -/
structure VerifyResult where
  run_id : Option String
  events : Nat
  valid : Bool
  break_index : Option Nat
deriving DecidableEq

/-- The verifier's loop over the parsed lines: check the link to the carried
`expected_prev`, recompute the hash from the line's own fields via
`chain_next`, stop at the first break.  (A parsed line always re-serializes,
so the error branch of `chain_next` is unreachable on files the producer or
`json.loads` can yield; it is conservatively a break.) -/
def verifyGo (prev : String) (idx : Nat) (acc : List AuditEvent) :
    List AuditEvent → List AuditEvent × Option Nat
  | [] => (acc, none)
  | ev :: rest =>
      if ev.prev_event_hash = prev then
        match chain_next ev.prev_event_hash (payloadOf ev) with
        | .ok recomputed =>
            if recomputed = ev.event_hash then
              verifyGo ev.event_hash (idx + 1) (acc ++ [ev]) rest
            else (acc, some idx)
        | .error _ => (acc, some idx)
      else (acc, some idx)

/-- `cli_verify_audit.verify_chain` on the parsed lines of an append file. -/
def verify_chain (evs : List AuditEvent) : VerifyResult :=
  match verifyGo "" 0 [] evs with
  | (events, brk) =>
      ⟨(events.head?).map (fun e => e.run_id), events.length, brk.isNone, brk⟩

/-! ### Specification-side predicates about chains and breaks -/

/-- Does the stored event hash match the digest recomputed from the event's
other fields (its own `prev_event_hash` included)? -/
def hashOkB (e : AuditEvent) : Bool :=
  match chain_next e.prev_event_hash (payloadOf e) with
  | .ok h => decide (h = e.event_hash)
  | .error _ => false

/-- A correctly linked, correctly hashed chain continuing from `prev`. -/
def chainOk (prev : String) : List AuditEvent → Bool
  | [] => true
  | e :: rest => decide (e.prev_event_hash = prev) && hashOkB e && chainOk e.event_hash rest

def dummyEvent : AuditEvent :=
  ⟨"", "", "", "", 0, none, none, [], .nil, "", ""⟩

/-- Is the event at position `i` of a chain segment expected to continue from
`p` inconsistent, judged from stored fields only? -/
def badFrom (p : String) (evs : List AuditEvent) (i : Nat) : Bool :=
  let e := evs.getD i dummyEvent
  let expected := if i = 0 then p else (evs.getD (i - 1) dummyEvent).event_hash
  !(decide (e.prev_event_hash = expected) && hashOkB e)

/-- Is the event at position `i` inconsistent, judged from stored fields only:
its `prev_event_hash` differs from the preceding event's `event_hash` (from
`""` at position 0), or its stored `event_hash` differs from the recomputed
digest? -/
def badAtB (evs : List AuditEvent) (i : Nat) : Bool :=
  badFrom "" evs i

/-- `i` is the position of the first inconsistent event. -/
def isFirstBad (evs : List AuditEvent) (i : Nat) : Prop :=
  i < evs.length ∧ badAtB evs i = true ∧ ∀ j, j < i → badAtB evs j = false

/-- The event with its `prev_event_hash` replaced (the C5 tamper operation). -/
def withPrev (e : AuditEvent) (x : String) : AuditEvent :=
  ⟨e.run_id, e.step, e.status, e.ts_iso, e.ts_ns, e.input_digest, e.output_digest,
   e.artifact_paths, e.details, x, e.event_hash⟩

/-- The previous-hash value `log_event` will use when the store is readable:
the in-memory entry if present, else the store's latest hash, else `""`. -/
def resolveState (ag : Agent) (s : Sys) (run_id : String) : String :=
  match alookup ag.last_hash_by_run run_id with
  | some h => h
  | none => (get_last_audit_hash s.db run_id).getD ""

/-- Fresh process state: no runs, empty store, empty cache. -/
def initSys : Sys := ⟨[], ⟨[], 0⟩⟩

def initAgent : Agent := ⟨[]⟩

/-! ### A reference decoder for the canonical encoding

Used only to prove the encoding injective (claim C6): a deterministic parser
that inverts `encodeV` on canonical values.  It never needs to run; it exists
so that `encodeV v = encodeV w → v = w` follows from the round trip. -/

/-- Maximal run of decimal digit bytes. -/
def takeDigitsB : List Nat → List Nat × List Nat
  | [] => ([], [])
  | b :: r =>
      if isDigitB b then
        match takeDigitsB r with
        | (ds, rest) => (b :: ds, rest)
      else ([], b :: r)

def digitsVal (ds : List Nat) : Nat :=
  ds.foldl (fun acc d => acc * 10 + (d - 48)) 0

def hexValB (b : Nat) : Option Nat :=
  if 48 ≤ b ∧ b ≤ 57 then some (b - 48)
  else if 97 ≤ b ∧ b ≤ 102 then some (b - 87)
  else if 65 ≤ b ∧ b ≤ 70 then some (b - 55)
  else none

/-- Decode the exponent part of a number token (after the `e`): optional `-`,
then the maximal digit run. -/
def parseExp : Bool → List Nat → List Nat → List Nat → Option (PyVal × List Nat)
  | _, _, _, [] => none
  | neg, ip, fs, b :: r2 =>
      if b = 45 then
        match takeDigitsB r2 with
        | ([], _) => none
        | (es, r3) => some (.float ⟨neg, ip, fs, true, es⟩, r3)
      else
        match takeDigitsB (b :: r2) with
        | ([], _) => none
        | (es, r3) => some (.float ⟨neg, ip, fs, false, es⟩, r3)

/-- Decode what follows a number token's integer digits: a `.` fraction, an
`e` exponent, both, or neither (then the token is an integer literal). -/
def parseNumTail : Bool → List Nat → List Nat → Option (PyVal × List Nat)
  | neg, ip, [] =>
      some (if neg then PyVal.int (-(digitsVal ip : Int)) else .int (digitsVal ip), [])
  | neg, ip, b :: r2 =>
      if b = 46 then
        match takeDigitsB r2 with
        | ([], _) => none
        | (fs, r3) =>
            match r3 with
            | [] => some (.float ⟨neg, ip, fs, false, []⟩, [])
            | b2 :: r4 =>
                if b2 = 101 then parseExp neg ip fs r4
                else some (.float ⟨neg, ip, fs, false, []⟩, b2 :: r4)
      else if b = 101 then parseExp neg ip [] r2
      else some (if neg then PyVal.int (-(digitsVal ip : Int)) else .int (digitsVal ip),
        b :: r2)

/-- Decode a JSON string body (after the opening quote) back to characters:
escape shortcuts, `\uXXXX`, and multi-byte UTF-8 sequences.  One unit of fuel
per decoded character, so the recursion is structural and any fuel above the
character count gives the same result. -/
def parseStrAux : Nat → List Char → List Nat → Option (List Char × List Nat)
  | 0, _, _ => none
  | _ + 1, _, [] => none
  | f + 1, acc, b :: r =>
      if b = 34 then some (acc.reverse, r)
      else if b = 92 then
        match r with
        | [] => none
        | e :: r2 =>
            if e = 34 then parseStrAux f (Char.ofNat 34 :: acc) r2
            else if e = 92 then parseStrAux f (Char.ofNat 92 :: acc) r2
            else if e = 98 then parseStrAux f (Char.ofNat 8 :: acc) r2
            else if e = 116 then parseStrAux f (Char.ofNat 9 :: acc) r2
            else if e = 110 then parseStrAux f (Char.ofNat 10 :: acc) r2
            else if e = 102 then parseStrAux f (Char.ofNat 12 :: acc) r2
            else if e = 114 then parseStrAux f (Char.ofNat 13 :: acc) r2
            else if e = 117 then
              match r2 with
              | h1 :: h2 :: h3 :: h4 :: r3 =>
                  match hexValB h1, hexValB h2, hexValB h3, hexValB h4 with
                  | some a, some b2, some c, some d =>
                      parseStrAux f (Char.ofNat (((a * 16 + b2) * 16 + c) * 16 + d) :: acc) r3
                  | _, _, _, _ => none
              | _ => none
            else none
      else if b < 128 then parseStrAux f (Char.ofNat b :: acc) r
      else if b < 224 then
        match r with
        | b2 :: r2 => parseStrAux f (Char.ofNat ((b - 192) * 64 + (b2 - 128)) :: acc) r2
        | [] => none
      else if b < 240 then
        match r with
        | b2 :: b3 :: r2 =>
            parseStrAux f (Char.ofNat ((b - 224) * 4096 + (b2 - 128) * 64 + (b3 - 128)) :: acc) r2
        | _ => none
      else
        match r with
        | b2 :: b3 :: b4 :: r2 =>
            parseStrAux f
              (Char.ofNat ((b - 240) * 262144 + (b2 - 128) * 4096 + (b3 - 128) * 64 + (b4 - 128))
                :: acc) r2
        | _ => none

mutual
/-- Decode one value (fuel-structural). -/
def parseV : Nat → List Nat → Option (PyVal × List Nat)
  | 0, _ => none
  | _ + 1, [] => none
  | f + 1, b :: r =>
      if b = 110 then
        match r with
        | 117 :: 108 :: 108 :: r2 => some (.null, r2)
        | _ => none
      else if b = 116 then
        match r with
        | 114 :: 117 :: 101 :: r2 => some (.bool true, r2)
        | _ => none
      else if b = 102 then
        match r with
        | 97 :: 108 :: 115 :: 101 :: r2 => some (.bool false, r2)
        | _ => none
      else if b = 34 then
        match parseStrAux (r.length + 1) [] r with
        | some (cs, r2) => some (.str (String.mk cs), r2)
        | none => none
      else if b = 91 then
        match r with
        | [] => none
        | b2 :: r2 =>
            if b2 = 93 then some (.list .nil, r2)
            else
              match parseItems f (b2 :: r2) with
              | some (xs, r3) => some (.list xs, r3)
              | none => none
      else if b = 123 then
        match r with
        | [] => none
        | b2 :: r2 =>
            if b2 = 125 then some (.dict .nil, r2)
            else
              match parseFieldsQ f (b2 :: r2) with
              | some (kvs, r3) => some (.dict kvs, r3)
              | none => none
      else if b = 45 then
        match takeDigitsB r with
        | ([], _) => none
        | (ds, r2) => parseNumTail true ds r2
      else if isDigitB b then
        match takeDigitsB (b :: r) with
        | (ds, r2) => parseNumTail false ds r2
      else none
/-- Decode the members of a nonempty array up to the closing bracket. -/
def parseItems : Nat → List Nat → Option (PyList × List Nat)
  | 0, _ => none
  | f + 1, bs =>
      match parseV f bs with
      | none => none
      | some (v, r) =>
          match r with
          | [] => none
          | b :: r2 =>
              if b = 44 then
                match parseItems f r2 with
                | some (xs, r3) => some (.cons v xs, r3)
                | none => none
              else if b = 93 then some (.cons v .nil, r2)
              else none
/-- Decode the members of a nonempty object up to the closing brace. -/
def parseFieldsQ : Nat → List Nat → Option (PyFields × List Nat)
  | 0, _ => none
  | f + 1, bs =>
      match bs with
      | [] => none
      | b :: r =>
          if b = 34 then
            match parseStrAux (r.length + 1) [] r with
            | none => none
            | some (cs, r1) =>
                match r1 with
                | [] => none
                | b2 :: r2 =>
                    if b2 = 58 then
                      match parseV f r2 with
                      | none => none
                      | some (v, r3) =>
                          match r3 with
                          | [] => none
                          | b3 :: r4 =>
                              if b3 = 44 then
                                match parseFieldsQ f r4 with
                                | some (t, r5) => some (.cons (String.mk cs) v t, r5)
                                | none => none
                              else if b3 = 125 then some (.cons (String.mk cs) v .nil, r4)
                              else none
                    else none
          else none
end

/-- A remainder that cannot extend a rendered value: empty, or starting with a
separator or closing byte, which is never a digit.  Every context `encodeV`
creates qualifies. -/
def delimB : List Nat → Bool
  | [] => true
  | b :: _ => decide (b = 44) || decide (b = 93) || decide (b = 125)

/-- The keys of a field list, in order. -/
def keysF : PyFields → List String
  | .nil => []
  | .cons k _ t => k :: keysF t

/-- Adjacent keys strictly ascending. -/
def keysSortedLt : List String → Bool
  | [] => true
  | [_] => true
  | a :: b :: r => keyLt a b && keysSortedLt (b :: r)

/-- Adjacent encoded members weakly ascending by key. -/
def fieldsSortedLe : List (String × List Nat) → Bool
  | [] => true
  | [_] => true
  | p :: q :: r => keyLe p.1 q.1 && fieldsSortedLe (q :: r)

/-- Everything `log_event` for run `A` reads or writes: the run's in-memory
cache entry, its append file, and its store rows (in append order, ids
stripped — the ids themselves differ between executions but their order is
what recovery uses). -/
def projA (A : String) (ag : Agent) (s : Sys) :
    Option String × List AuditEvent × List AuditRow :=
  (alookup ag.last_hash_by_run A, fileFor s A, rowsDataFor s.db A)

/-- The calls addressed to one run. -/
def callsFor (A : String) (calls : List CallIn) : List CallIn :=
  calls.filter (fun c => decide (c.args.run_id = A))

/-- The call outcomes for one run, in order. -/
def resultsFor (A : String) (rs : List (String × Except Err AuditEvent)) :
    List (Except Err AuditEvent) :=
  rs.filterMap (fun p => if p.1 = A then some p.2 else none)

/-- The event a successful `log_event` call constructs from its arguments, the
clock, the resolved previous hash and the computed digest. -/
def mkEvent (env : Env) (a : LogArgs) (prev ehash : String) : AuditEvent :=
  ⟨a.run_id, a.step, a.status, env.ts_iso, env.ts_ns, a.input_digest, a.output_digest,
   a.artifact_paths.getD [], a.details, prev, ehash⟩

/-- The hash at the end of a chain segment, or the incoming hash if empty. -/
def lastHashOr (p : String) (evs : List AuditEvent) : String :=
  (evs.getLast?.map (fun e => e.event_hash)).getD p

/-! ## Theorems -/

/-- SHA-256 test vector: the empty message (FIPS 180-4 / NIST CAVS). -/
theorem sha256_vector_empty :
    sha256_bytes (utf8 "") = "e3b0c44298fc1c149afbf4c8996fb92427ae41e4649b934ca495991b7852b855" := by
  decide

/-- SHA-256 test vector: `"abc"` (FIPS 180-4 appendix). -/
theorem sha256_vector_abc :
    sha256_bytes (utf8 "abc") = "ba7816bf8f01cfea414140de5dae2223b00361a396177a9cb410ff61f20015ad" := by
  decide

/-- Resolving with a cache hit returns the cached hash. -/
theorem resolve_hit (env : Env) (ag : Agent) (s : Sys) (run h : String)
    (hc : alookup ag.last_hash_by_run run = some h) :
    resolve_prev_hash env ag s run = .ok h := by
  simp [resolve_prev_hash, hc]

/-- Resolving on a cache miss queries the store (`last or ""`). -/
theorem resolve_miss (env : Env) (ag : Agent) (s : Sys) (run : String)
    (hc : alookup ag.last_hash_by_run run = none) (hdb : env.dbRead = true) :
    resolve_prev_hash env ag s run = .ok ((get_last_audit_hash s.db run).getD "") := by
  simp [resolve_prev_hash, hc, hdb]

/-- When the store is readable, resolution succeeds and returns `resolveState`. -/
theorem resolve_eq_state (env : Env) (ag : Agent) (s : Sys) (run : String)
    (hdb : env.dbRead = true) :
    resolve_prev_hash env ag s run = .ok (resolveState ag s run) := by
  unfold resolve_prev_hash resolveState
  cases alookup ag.last_hash_by_run run <;> simp [hdb]

/-- Inversion of a successful `log_event`: the returned event is built from the
arguments, the clock, the resolved previous hash and the `chain_next` digest,
and both sinks and the cache are updated. -/
theorem log_event_ok_inv (env : Env) (a : LogArgs) (ag : Agent) (s : Sys)
    (e : AuditEvent) (ag2 : Agent) (s2 : Sys)
    (h : log_event env a ag s = (.ok e, ag2, s2)) :
    ∃ prev ehash,
      resolve_prev_hash env ag s a.run_id = .ok prev ∧
      chain_next prev
        (eventDict a.run_id a.step a.status env.ts_iso env.ts_ns a.input_digest
          a.output_digest (a.artifact_paths.getD []) a.details prev) = .ok ehash ∧
      e = ⟨a.run_id, a.step, a.status, env.ts_iso, env.ts_ns, a.input_digest,
           a.output_digest, a.artifact_paths.getD [], a.details, prev, ehash⟩ ∧
      env.fileWrite = true ∧ env.dbWrite = true ∧
      ag2 = ⟨aset ag.last_hash_by_run a.run_id ehash⟩ ∧
      s2 = ⟨fappend s.files a.run_id e, append_audit s.db e⟩ := by
  unfold log_event at h
  rcases hres : resolve_prev_hash env ag s a.run_id with er | prev
  · rw [hres] at h; simp at h
  · rw [hres] at h
    simp only at h
    rcases hch : chain_next prev
        (eventDict a.run_id a.step a.status env.ts_iso env.ts_ns a.input_digest
          a.output_digest (a.artifact_paths.getD []) a.details prev) with er | ehash
    · rw [hch] at h; simp at h
    · rw [hch] at h
      simp only at h
      rcases hst : statusOk a.status with _ | _
      · rw [hst] at h; simp at h
      · rw [hst] at h
        simp only [if_true] at h
        rcases hfw : env.fileWrite with _ | _
        · rw [hfw] at h; simp at h
        · rw [hfw] at h
          rcases hdw : env.dbWrite with _ | _
          · rw [hdw] at h; simp at h
          · rw [hdw] at h
            simp only [if_true, Prod.mk.injEq, Except.ok.injEq] at h
            obtain ⟨h1, h2, h3⟩ := h
            subst h1
            exact ⟨prev, ehash, by simp [hres], by simp [hch], rfl, by simp [hfw],
              by simp [hdw], h2.symm, h3.symm⟩

/-- C2: every event returned by `log_event` carries an `event_hash` equal to the
lowercase-hex SHA-256 digest of the UTF-8 bytes of the resolved previous hash
followed by the canonical encoding of all its fields except `event_hash`
itself (the payload includes `prev_event_hash`); and the payload is invariant
under the event's own `event_hash` field, so the hash excludes itself.
`chain_next` is a pure function of `(prev_hash, payload)` by construction. -/
theorem c2_event_hash_digest (env : Env) (a : LogArgs) (ag : Agent) (s : Sys)
    (e : AuditEvent) (ag2 : Agent) (s2 : Sys)
    (h : log_event env a ag s = (.ok e, ag2, s2)) :
    (∃ pb, encodeV (payloadOf e) = .ok pb ∧
      e.event_hash = sha256_bytes (utf8 e.prev_event_hash ++ pb)) ∧
    (∀ h2 : String,
      payloadOf ⟨e.run_id, e.step, e.status, e.ts_iso, e.ts_ns, e.input_digest,
        e.output_digest, e.artifact_paths, e.details, e.prev_event_hash, h2⟩ = payloadOf e) := by
  obtain ⟨prev, ehash, _, hch, he, _, _, _, _⟩ := log_event_ok_inv env a ag s e ag2 s2 h
  constructor
  · have hpay : payloadOf e =
        eventDict a.run_id a.step a.status env.ts_iso env.ts_ns a.input_digest
          a.output_digest (a.artifact_paths.getD []) a.details prev := by
      rw [he]; rfl
    unfold chain_next at hch
    rcases henc : encodeV (eventDict a.run_id a.step a.status env.ts_iso env.ts_ns
        a.input_digest a.output_digest (a.artifact_paths.getD []) a.details prev) with er | pb
    · rw [henc] at hch; simp at hch
    · rw [henc] at hch
      simp only [Except.ok.injEq] at hch
      refine ⟨pb, by rw [hpay]; exact henc, ?_⟩
      have h1 : e.event_hash = ehash := by rw [he]
      have h2 : e.prev_event_hash = prev := by rw [he]
      rw [h1, h2, ← hch]
  · intro h2
    rfl

/-- C8: on a cold cache, an unreachable Durable Recovery Source is fatal: the
error propagates, there is no fallback to `""`, and neither sink nor the cache
is touched. -/
theorem c8_recovery_error (env : Env) (a : LogArgs) (ag : Agent) (s : Sys)
    (hc : alookup ag.last_hash_by_run a.run_id = none) (hdb : env.dbRead = false) :
    log_event env a ag s = (.error .recovery, ag, s) := by
  unfold log_event
  have hres : resolve_prev_hash env ag s a.run_id = .error .recovery := by
    simp [resolve_prev_hash, hc, hdb]
  rw [hres]

/-- C10: whenever `log_event` fails — during recovery, encoding, pydantic
validation, the file append or the store write — the in-memory cache and the
store are unchanged,
so a retry resolves exactly the previous hash the failed call used (or would
have used). -/
theorem c10_failed_call_cache_unchanged (env : Env) (a : LogArgs) (ag : Agent) (s : Sys)
    (err : Err) (ag2 : Agent) (s2 : Sys)
    (h : log_event env a ag s = (.error err, ag2, s2)) :
    ag2 = ag ∧ s2.db = s.db ∧
      resolve_prev_hash env ag2 s2 a.run_id = resolve_prev_hash env ag s a.run_id := by
  have key : ag2 = ag ∧ s2.db = s.db := by
    unfold log_event at h
    rcases hres : resolve_prev_hash env ag s a.run_id with er | prev
    · rw [hres] at h
      simp only [Prod.mk.injEq] at h
      exact ⟨h.2.1.symm, by rw [← h.2.2]⟩
    · rw [hres] at h
      simp only at h
      rcases hch : chain_next prev
          (eventDict a.run_id a.step a.status env.ts_iso env.ts_ns a.input_digest
            a.output_digest (a.artifact_paths.getD []) a.details prev) with er | ehash
      · rw [hch] at h
        simp only [Prod.mk.injEq] at h
        exact ⟨h.2.1.symm, by rw [← h.2.2]⟩
      · rw [hch] at h
        simp only at h
        rcases hst : statusOk a.status with _ | _
        · rw [hst] at h
          simp only [Bool.false_eq_true, if_false, Prod.mk.injEq] at h
          exact ⟨h.2.1.symm, by rw [← h.2.2]⟩
        · rw [hst] at h
          simp only [if_true] at h
          rcases hfw : env.fileWrite with _ | _
          · rw [hfw] at h
            simp only [Bool.false_eq_true, if_false, Prod.mk.injEq] at h
            exact ⟨h.2.1.symm, by rw [← h.2.2]⟩
          · rw [hfw] at h
            rcases hdw : env.dbWrite with _ | _
            · rw [hdw] at h
              simp only [if_true, Bool.false_eq_true, if_false, Prod.mk.injEq] at h
              exact ⟨h.2.1.symm, by rw [← h.2.2]⟩
            · rw [hdw] at h
              simp at h
  refine ⟨key.1, key.2, ?_⟩
  unfold resolve_prev_hash get_last_audit_hash
  rw [key.1, key.2]

mutual
/-- A value with no unserializable constituent encodes successfully. -/
theorem noUnsupported_encV : ∀ v : PyVal, hasUnsupportedV v = false → ∃ b, encodeV v = .ok b
  | .null, _ => ⟨_, rfl⟩
  | .bool true, _ => ⟨_, rfl⟩
  | .bool false, _ => ⟨_, rfl⟩
  | .int _, _ => ⟨_, rfl⟩
  | .float _, _ => ⟨_, rfl⟩
  | .str _, _ => ⟨_, rfl⟩
  | .nanVal, _ => ⟨_, rfl⟩
  | .infVal, _ => ⟨_, rfl⟩
  | .negInfVal, _ => ⟨_, rfl⟩
  | .unsupported _, h => by simp [hasUnsupportedV] at h
  | .list xs, h => by
      obtain ⟨bs, hbs⟩ := noUnsupported_encL xs (by simpa [hasUnsupportedV] using h)
      exact ⟨91 :: (sepComma bs ++ [93]), by simp [encodeV, hbs]⟩
  | .dict kvs, h => by
      obtain ⟨ps, hps⟩ := noUnsupported_encF kvs (by simpa [hasUnsupportedV] using h)
      exact ⟨123 :: (renderFields (sortFields ps) ++ [125]), by simp [encodeV, hps]⟩
theorem noUnsupported_encL : ∀ xs : PyList, hasUnsupportedL xs = false → ∃ bs, encodeL xs = .ok bs
  | .nil, _ => ⟨_, rfl⟩
  | .cons v t, h => by
      simp only [hasUnsupportedL, Bool.or_eq_false_iff] at h
      obtain ⟨b, hb⟩ := noUnsupported_encV v h.1
      obtain ⟨bs, hbs⟩ := noUnsupported_encL t h.2
      exact ⟨b :: bs, by simp [encodeL, hb, hbs]⟩
theorem noUnsupported_encF : ∀ kvs : PyFields, hasUnsupportedF kvs = false → ∃ ps, encodeF kvs = .ok ps
  | .nil, _ => ⟨_, rfl⟩
  | .cons k v t, h => by
      simp only [hasUnsupportedF, Bool.or_eq_false_iff] at h
      obtain ⟨b, hb⟩ := noUnsupported_encV v h.1
      obtain ⟨ps, hps⟩ := noUnsupported_encF t h.2
      exact ⟨(k, b) :: ps, by simp [encodeF, hb, hps]⟩
end

mutual
/-- A value containing an unserializable constituent makes `orjson.dumps`
raise `TypeError` (`Err.encoding`). -/
theorem unsupported_encV : ∀ v : PyVal, hasUnsupportedV v = true → encodeV v = .error .encoding
  | .null, h => by simp [hasUnsupportedV] at h
  | .bool _, h => by simp [hasUnsupportedV] at h
  | .int _, h => by simp [hasUnsupportedV] at h
  | .float _, h => by simp [hasUnsupportedV] at h
  | .str _, h => by simp [hasUnsupportedV] at h
  | .nanVal, h => by simp [hasUnsupportedV] at h
  | .infVal, h => by simp [hasUnsupportedV] at h
  | .negInfVal, h => by simp [hasUnsupportedV] at h
  | .unsupported _, _ => rfl
  | .list xs, h => by
      have := unsupported_encL xs (by simpa [hasUnsupportedV] using h)
      simp [encodeV, this]
  | .dict kvs, h => by
      have := unsupported_encF kvs (by simpa [hasUnsupportedV] using h)
      simp [encodeV, this]
theorem unsupported_encL : ∀ xs : PyList, hasUnsupportedL xs = true → encodeL xs = .error .encoding
  | .cons v t, h => by
      rcases hv : hasUnsupportedV v with _ | _
      · have hl : hasUnsupportedL t = true := by
          simpa [hasUnsupportedL, hv] using h
        obtain ⟨b, hb⟩ := noUnsupported_encV v hv
        have := unsupported_encL t hl
        simp [encodeL, hb, this]
      · have := unsupported_encV v hv
        simp [encodeL, this]
theorem unsupported_encF : ∀ kvs : PyFields, hasUnsupportedF kvs = true → encodeF kvs = .error .encoding
  | .cons k v t, h => by
      rcases hv : hasUnsupportedV v with _ | _
      · have hl : hasUnsupportedF t = true := by
          simpa [hasUnsupportedF, hv] using h
        obtain ⟨b, hb⟩ := noUnsupported_encV v hv
        have := unsupported_encF t hl
        simp [encodeF, hb, this]
      · have := unsupported_encV v hv
        simp [encodeF, this]
end

mutual
/-- JSON-representable values contain nothing unserializable. -/
theorem rep_noUnsupportedV : ∀ v : PyVal, repV v = true → hasUnsupportedV v = false
  | .null, _ => rfl
  | .bool _, _ => rfl
  | .int _, _ => rfl
  | .float _, _ => rfl
  | .str _, _ => rfl
  | .nanVal, h => by simp [repV] at h
  | .infVal, h => by simp [repV] at h
  | .negInfVal, h => by simp [repV] at h
  | .unsupported _, h => by simp [repV] at h
  | .list xs, h => by
      simpa [hasUnsupportedV] using rep_noUnsupportedL xs (by simpa [repV] using h)
  | .dict kvs, h => by
      simpa [hasUnsupportedV] using rep_noUnsupportedF kvs (by simpa [repV] using h)
theorem rep_noUnsupportedL : ∀ xs : PyList, repL xs = true → hasUnsupportedL xs = false
  | .nil, _ => rfl
  | .cons v t, h => by
      simp only [repL, Bool.and_eq_true] at h
      simp [hasUnsupportedL, rep_noUnsupportedV v h.1, rep_noUnsupportedL t h.2]
theorem rep_noUnsupportedF : ∀ kvs : PyFields, repF kvs = true → hasUnsupportedF kvs = false
  | .nil, _ => rfl
  | .cons k v t, h => by
      simp only [repF, Bool.and_eq_true] at h
      simp [hasUnsupportedF, rep_noUnsupportedV v h.1, rep_noUnsupportedF t h.2]
end

/-- The value of an `Option String` field always encodes. -/
theorem optStr_ok (i : Option String) : ∃ b, encodeV (optStr i) = .ok b := by
  cases i
  · exact ⟨[110, 117, 108, 108], rfl⟩
  · exact ⟨strBytes _, rfl⟩

/-- An optional-string field is never unserializable. -/
theorem optStr_noUnsupported (i : Option String) : hasUnsupportedV (optStr i) = false := by
  cases i <;> rfl

/-- A string list is never unserializable. -/
theorem pyStrList_noUnsupported (l : List String) : hasUnsupportedL (pyStrList l) = false := by
  induction l with
  | nil => rfl
  | cons s r ih => simp [pyStrList, hasUnsupportedL, hasUnsupportedV, ih]

/-- A list of strings always encodes. -/
theorem pyStrList_ok (l : List String) : ∃ bs, encodeL (pyStrList l) = .ok bs := by
  induction l with
  | nil => exact ⟨_, rfl⟩
  | cons s r ih =>
      obtain ⟨bs, hbs⟩ := ih
      exact ⟨strBytes s :: bs, by simp [pyStrList, encodeL, encodeV, hbs]⟩

/-- The event dict encodes iff its `details` do; here: sufficiency both ways.
If the details have no unserializable constituent, the whole payload encodes. -/
theorem eventDict_enc_ok (run_id step status ts_iso : String) (ts_ns : Int)
    (input_digest output_digest : Option String) (artifact_paths : List String)
    (details : PyFields) (prev : String) (hd : hasUnsupportedF details = false) :
    ∃ pb, encodeV (eventDict run_id step status ts_iso ts_ns input_digest output_digest
      artifact_paths details prev) = .ok pb := by
  obtain ⟨bi, hbi⟩ := optStr_ok input_digest
  obtain ⟨bo, hbo⟩ := optStr_ok output_digest
  obtain ⟨bap, hbap⟩ := pyStrList_ok artifact_paths
  rcases henc : encodeV (eventDict run_id step status ts_iso ts_ns input_digest output_digest
      artifact_paths details prev) with er | pb
  · exfalso
    have hnu : hasUnsupportedV (eventDict run_id step status ts_iso ts_ns input_digest
        output_digest artifact_paths details prev) = false := by
      simp [eventDict, hasUnsupportedV, hasUnsupportedF, optStr_noUnsupported,
        pyStrList_noUnsupported, hd]
    obtain ⟨b, hb⟩ := noUnsupported_encV _ hnu
    rw [hb] at henc
    exact Except.noConfusion henc
  · exact ⟨pb, rfl⟩

/-- If the details contain an unserializable value, encoding the event dict
raises. -/
theorem eventDict_enc_err (run_id step status ts_iso : String) (ts_ns : Int)
    (input_digest output_digest : Option String) (artifact_paths : List String)
    (details : PyFields) (prev : String) (hd : hasUnsupportedF details = true) :
    encodeV (eventDict run_id step status ts_iso ts_ns input_digest output_digest
      artifact_paths details prev) = .error .encoding := by
  obtain ⟨bi, hbi⟩ := optStr_ok input_digest
  obtain ⟨bo, hbo⟩ := optStr_ok output_digest
  obtain ⟨bap, hbap⟩ := pyStrList_ok artifact_paths
  have hbd : encodeF details = .error Err.encoding := unsupported_encF details hd
  have hdict : encodeV (.dict details) = .error .encoding := by simp [encodeV, hbd]
  unfold eventDict
  simp [encodeV, encodeF, hbi, hbo, hbap, hbd, hdict]

/-- C7 (amended): a `details` payload with a value outside orjson's
serializable set makes `log_event` raise `TypeError` from the encoder before
any write: no file line, no store row, no cache update.  (Non-finite floats
are NOT outside that set: orjson serializes them as `null`; see the
counterexample.)  The store must be readable, otherwise the recovery error
fires first. -/
theorem c7_unserializable_aborts_before_write (env : Env) (a : LogArgs) (ag : Agent) (s : Sys)
    (hd : hasUnsupportedF a.details = true) (hdb : env.dbRead = true) :
    log_event env a ag s = (.error .encoding, ag, s) := by
  unfold log_event
  rw [resolve_eq_state env ag s a.run_id hdb]
  simp only
  have hch : chain_next (resolveState ag s a.run_id)
      (eventDict a.run_id a.step a.status env.ts_iso env.ts_ns a.input_digest
        a.output_digest (a.artifact_paths.getD []) a.details (resolveState ag s a.run_id)) =
      .error .encoding := by
    unfold chain_next
    rw [eventDict_enc_err _ _ _ _ _ _ _ _ _ _ hd]
  rw [hch]

/-- In an id-ascending row list, the head's id is below every later id. -/
theorem ascAll : ∀ (rest : List (Nat × AuditRow)) (r : Nat × AuditRow),
    rowsAsc (r :: rest) = true → ∀ q ∈ rest, r.1 < q.1
  | [], _, _, q, hq => absurd hq (List.not_mem_nil q)
  | r2 :: rest2, r, h, q, hq => by
      simp only [rowsAsc, Bool.and_eq_true, decide_eq_true_eq] at h
      rcases List.mem_cons.mp hq with rfl | hq2
      · exact h.1
      · exact Nat.lt_trans h.1 (ascAll rest2 r2 h.2 q hq2)

theorem rowsAsc_tail : ∀ (r : Nat × AuditRow) (rest : List (Nat × AuditRow)),
    rowsAsc (r :: rest) = true → rowsAsc rest = true
  | _, [], _ => rfl
  | r, r2 :: rest2, h => by
      simp only [rowsAsc, Bool.and_eq_true] at h
      exact h.2

/-- `rowsAsc` gives pairwise-increasing ids. -/
theorem rowsAsc_pairwise : ∀ l : List (Nat × AuditRow),
    rowsAsc l = true → l.Pairwise (fun a b => a.1 < b.1)
  | [], _ => List.Pairwise.nil
  | r :: rest, h =>
      List.Pairwise.cons (ascAll rest r h) (rowsAsc_pairwise rest (rowsAsc_tail r rest h))

theorem getLast?_map_own {α β : Type} (f : α → β) :
    ∀ l : List α, (l.map f).getLast? = l.getLast?.map f
  | [] => rfl
  | [a] => rfl
  | a :: b :: t => by
      rw [List.map_cons, List.map_cons, List.getLast?_cons_cons, List.getLast?_cons_cons,
        ← List.map_cons]
      exact getLast?_map_own f (b :: t)

theorem getLast?_cons_own {α : Type} : ∀ (r : α) (rest : List α),
    (r :: rest).getLast? = some (rest.getLastD r)
  | _, [] => rfl
  | r, r2 :: rest2 => by
      rw [List.getLast?_cons_cons, getLast?_cons_own r2 rest2, List.getLastD_cons]

/-- With pairwise-increasing ids above the current best, the max-by-id scan
returns the last element. -/
theorem maxAux_some : ∀ (l : List (Nat × AuditRow)) (x : Nat × AuditRow),
    l.Pairwise (fun a b => a.1 < b.1) → (∀ r ∈ l, x.1 < r.1) →
    maxByIdAux (some x) l = some (l.getLastD x)
  | [], _, _, _ => rfl
  | r :: rest, x, hp, hx => by
      have h1 : x.1 < r.1 := hx r (List.mem_cons_self r rest)
      have step : maxByIdAux (some x) (r :: rest) = maxByIdAux (some r) rest := by
        simp [maxByIdAux, h1]
      rw [step, List.getLastD_cons]
      exact maxAux_some rest r (List.Pairwise.sublist (List.sublist_cons_self r rest) hp)
        (fun q hq => (List.pairwise_cons.mp hp).1 q hq)

/-- The max-by-id scan of an id-ascending list is its last element. -/
theorem maxAux_getLast (l : List (Nat × AuditRow))
    (hp : l.Pairwise (fun a b => a.1 < b.1)) :
    maxByIdAux none l = l.getLast? := by
  cases l with
  | nil => rfl
  | cons r rest =>
      have step : maxByIdAux none (r :: rest) = maxByIdAux (some r) rest := by
        simp [maxByIdAux]
      rw [step, getLast?_cons_own,
        maxAux_some rest r (List.Pairwise.sublist (List.sublist_cons_self r rest) hp)
          (fun q hq => (List.pairwise_cons.mp hp).1 q hq)]

/-- On a well-formed store, selecting by greatest internal id returns the most
recently appended row for the run. -/
theorem get_last_by_append_order (db : DBState) (run : String) (hwf : wfDB db = true) :
    get_last_audit_hash db run = (rowsDataFor db run).getLast?.map (fun r => r.event_hash) := by
  have hasc : rowsAsc db.rows = true := by
    simp only [wfDB, Bool.and_eq_true] at hwf
    exact hwf.1
  have hp := rowsAsc_pairwise db.rows hasc
  have hpf : (db.rows.filter (fun r => r.2.run_id = run)).Pairwise (fun a b => a.1 < b.1) :=
    List.Pairwise.sublist (List.filter_sublist db.rows) hp
  unfold get_last_audit_hash rowsDataFor
  rw [maxAux_getLast _ hpf, getLast?_map_own]
  cases (db.rows.filter (fun r => r.2.run_id = run)).getLast? <;> rfl

/-- C4: with M ≥ 1 events already persisted for the run, a freshly constructed
agent (empty in-memory cache) logging event M+1 uses as `prev_event_hash` the
`event_hash` selected by the store's monotonically increasing row id, which on
a well-formed store is the most recently appended row for that run_id — for
every value of the rows' timestamp columns. -/
theorem c4_restart_recovery (env : Env) (a : LogArgs) (ag : Agent) (s : Sys)
    (e : AuditEvent) (ag2 : Agent) (s2 : Sys)
    (hfresh : ag.last_hash_by_run = [])
    (hwf : wfDB s.db = true)
    (_hM : rowsDataFor s.db a.run_id ≠ [])
    (hlog : log_event env a ag s = (.ok e, ag2, s2)) :
    e.prev_event_hash = (get_last_audit_hash s.db a.run_id).getD "" ∧
    e.prev_event_hash = ((rowsDataFor s.db a.run_id).getLast?.map (fun r => r.event_hash)).getD "" := by
  obtain ⟨prev, ehash, hres, _, he, _, _, _, _⟩ := log_event_ok_inv env a ag s e ag2 s2 hlog
  have hmiss : alookup ag.last_hash_by_run a.run_id = none := by
    rw [hfresh]; rfl
  have hprev : e.prev_event_hash = prev := by rw [he]
  unfold resolve_prev_hash at hres
  rw [hmiss] at hres
  rcases hdb : env.dbRead with _ | _
  · rw [hdb] at hres; simp at hres
  · rw [hdb] at hres
    simp only [if_true, Except.ok.injEq] at hres
    constructor
    · rw [hprev, ← hres]
    · rw [hprev, ← hres, get_last_by_append_order s.db a.run_id hwf]

theorem alookup_aset_self : ∀ (l : List (String × String)) (k v : String),
    alookup (aset l k v) k = some v
  | [], k, v => by simp [aset, alookup]
  | p :: rest, k, v => by
      by_cases h : p.1 = k
      · simp [aset, alookup, h]
      · simp [aset, alookup, h, alookup_aset_self rest k v]

theorem alookup_aset_other : ∀ (l : List (String × String)) (k v k2 : String),
    k2 ≠ k → alookup (aset l k v) k2 = alookup l k2
  | [], k, v, k2, hne => by simp [aset, alookup, Ne.symm hne]
  | p :: rest, k, v, k2, hne => by
      by_cases h : p.1 = k
      · subst h
        simp [aset, alookup, Ne.symm hne]
      · by_cases h2 : p.1 = k2
        · simp [aset, alookup, h, h2, hne]
        · simp [aset, alookup, h, h2, alookup_aset_other rest k v k2 hne]

theorem flookup_fappend_self : ∀ (files : List (String × List AuditEvent)) (k : String)
    (e : AuditEvent), flookup (fappend files k e) k = some ((flookup files k).getD [] ++ [e])
  | [], k, e => by simp [fappend, flookup]
  | p :: rest, k, e => by
      by_cases h : p.1 = k
      · simp [fappend, flookup, h]
      · simp [fappend, flookup, h, flookup_fappend_self rest k e]

theorem flookup_fappend_other : ∀ (files : List (String × List AuditEvent)) (k k2 : String)
    (e : AuditEvent), k2 ≠ k → flookup (fappend files k e) k2 = flookup files k2
  | [], k, k2, e, hne => by simp [fappend, flookup, Ne.symm hne]
  | p :: rest, k, k2, e, hne => by
      by_cases h : p.1 = k
      · subst h
        simp [fappend, flookup, Ne.symm hne]
      · by_cases h2 : p.1 = k2
        · simp [fappend, flookup, h, h2, hne]
        · simp [fappend, flookup, h, h2, flookup_fappend_other rest k k2 e hne]

theorem lastHashOr_cons (p : String) (e : AuditEvent) (evs : List AuditEvent) :
    lastHashOr p (e :: evs) = lastHashOr e.event_hash evs := by
  cases evs with
  | nil => rfl
  | cons f t =>
      unfold lastHashOr
      rw [getLast?_cons_own e (f :: t), List.getLastD_cons, getLast?_cons_own f t]
      rfl

/-- Forward equation of a fully successful `log_event`. -/
theorem log_event_ok_eq (env : Env) (a : LogArgs) (ag : Agent) (s : Sys) (prev ehash : String)
    (hres : resolve_prev_hash env ag s a.run_id = .ok prev)
    (hch : chain_next prev
      (eventDict a.run_id a.step a.status env.ts_iso env.ts_ns a.input_digest
        a.output_digest (a.artifact_paths.getD []) a.details prev) = .ok ehash)
    (hst : statusOk a.status = true)
    (hfw : env.fileWrite = true) (hdw : env.dbWrite = true) :
    log_event env a ag s =
      (.ok (mkEvent env a prev ehash),
       ⟨aset ag.last_hash_by_run a.run_id ehash⟩,
       ⟨fappend s.files a.run_id (mkEvent env a prev ehash),
        append_audit s.db (mkEvent env a prev ehash)⟩) := by
  unfold log_event
  rw [hres]
  simp only
  rw [hch]
  simp [hst, hfw, hdw, mkEvent]

/-- A `goodCall` succeeds and produces the chained event. -/
theorem log_event_good (run : String) (c : CallIn) (ag : Agent) (s : Sys)
    (hg : goodCall run c = true) :
    ∃ ehash,
      log_event c.env c.args ag s =
        (.ok (mkEvent c.env c.args (resolveState ag s run) ehash),
         ⟨aset ag.last_hash_by_run run ehash⟩,
         ⟨fappend s.files run (mkEvent c.env c.args (resolveState ag s run) ehash),
          append_audit s.db (mkEvent c.env c.args (resolveState ag s run) ehash)⟩) ∧
      chain_next (resolveState ag s run)
        (payloadOf (mkEvent c.env c.args (resolveState ag s run) ehash)) = .ok ehash := by
  simp only [goodCall, Bool.and_eq_true, decide_eq_true_eq] at hg
  obtain ⟨⟨⟨⟨⟨hrun, hrep⟩, hdbr⟩, hfw⟩, hdw⟩, hst⟩ := hg
  have hres : resolve_prev_hash c.env ag s c.args.run_id = .ok (resolveState ag s c.args.run_id) :=
    resolve_eq_state c.env ag s c.args.run_id hdbr
  obtain ⟨pb, hpb⟩ := eventDict_enc_ok c.args.run_id c.args.step c.args.status c.env.ts_iso
    c.env.ts_ns c.args.input_digest c.args.output_digest (c.args.artifact_paths.getD [])
    c.args.details (resolveState ag s c.args.run_id) (rep_noUnsupportedF c.args.details hrep)
  have hch : chain_next (resolveState ag s c.args.run_id)
      (eventDict c.args.run_id c.args.step c.args.status c.env.ts_iso c.env.ts_ns
        c.args.input_digest c.args.output_digest (c.args.artifact_paths.getD [])
        c.args.details (resolveState ag s c.args.run_id)) =
      .ok (sha256_bytes (utf8 (resolveState ag s c.args.run_id) ++ pb)) := by
    unfold chain_next
    rw [hpb]
  subst hrun
  refine ⟨sha256_bytes (utf8 (resolveState ag s c.args.run_id) ++ pb),
    log_event_ok_eq c.env c.args ag s _ _ hres hch hst hfw hdw, ?_⟩
  have hpay : payloadOf (mkEvent c.env c.args (resolveState ag s c.args.run_id)
      (sha256_bytes (utf8 (resolveState ag s c.args.run_id) ++ pb))) =
      eventDict c.args.run_id c.args.step c.args.status c.env.ts_iso c.env.ts_ns
        c.args.input_digest c.args.output_digest (c.args.artifact_paths.getD [])
        c.args.details (resolveState ag s c.args.run_id) := rfl
  rw [hpay, hch]

/-- The single-run invariant: a sequence of good calls for one run succeeds
call by call, returns a correctly linked and hashed chain continuing from the
resolved state, appends exactly those events to the run's file, and leaves the
resolvable previous hash at the chain's last event hash. -/
theorem runSeq_single (run : String) :
    ∀ (calls : List CallIn) (ag : Agent) (s : Sys),
    (∀ c ∈ calls, goodCall run c = true) →
    (∀ r ∈ (runSeq calls ag s).1, isOkE r.2 = true) ∧
    (okEventsOf (runSeq calls ag s).1).length = calls.length ∧
    chainOk (resolveState ag s run) (okEventsOf (runSeq calls ag s).1) = true ∧
    (∀ e ∈ okEventsOf (runSeq calls ag s).1, e.run_id = run) ∧
    fileFor (runSeq calls ag s).2.2 run = fileFor s run ++ okEventsOf (runSeq calls ag s).1 ∧
    resolveState (runSeq calls ag s).2.1 (runSeq calls ag s).2.2 run =
      lastHashOr (resolveState ag s run) (okEventsOf (runSeq calls ag s).1)
  | [], ag, s, _ => by
      refine ⟨?_, rfl, rfl, ?_, ?_, rfl⟩
      · intro r hr
        exact absurd hr (List.not_mem_nil r)
      · intro e he
        exact absurd he (List.not_mem_nil e)
      · simp [runSeq, okEventsOf]
  | c :: rest, ag, s, hgood => by
      obtain ⟨ehash, hle, hch⟩ := log_event_good run c ag s (hgood c (List.mem_cons_self c rest))
      have hrun : c.args.run_id = run := by
        have := hgood c (List.mem_cons_self c rest)
        simp only [goodCall, Bool.and_eq_true, decide_eq_true_eq] at this
        exact this.1.1.1.1.1
      set p := resolveState ag s run with hp
      set e := mkEvent c.env c.args p ehash with hedef
      set ag1 : Agent := ⟨aset ag.last_hash_by_run run ehash⟩ with hag1
      set s1 : Sys := ⟨fappend s.files run e, append_audit s.db e⟩ with hs1
      have ih := runSeq_single run rest ag1 s1 (fun d hd => hgood d (List.mem_cons_of_mem c hd))
      obtain ⟨ihok, ihlen, ihchain, ihrun, ihfile, ihres⟩ := ih
      rcases hr : runSeq rest ag1 s1 with ⟨rs, ag2, s2⟩
      simp only [hr] at ihok ihlen ihchain ihrun ihfile ihres
      have hstep : runSeq (c :: rest) ag s = ((c.args.run_id, Except.ok e) :: rs, ag2, s2) := by
        unfold runSeq
        rw [hle]
        simp only [hr]
      have hres1 : resolveState ag1 s1 run = ehash := by
        rw [hag1]
        simp [resolveState, alookup_aset_self]
      have hoks : okEventsOf ((c.args.run_id, Except.ok e) :: rs) = e :: okEventsOf rs := by
        simp [okEventsOf]
      have hprev : e.prev_event_hash = p := rfl
      have hhash : e.event_hash = ehash := rfl
      refine ⟨?_, ?_, ?_, ?_, ?_, ?_⟩
      · intro r hmem
        rw [hstep] at hmem
        simp only at hmem
        rcases List.mem_cons.mp hmem with rfl | hmem2
        · rfl
        · exact ihok r hmem2
      · rw [hstep]
        simp only [hoks, List.length_cons]
        rw [ihlen]
      · rw [hstep]
        simp only [hoks]
        unfold chainOk
        have hhok : hashOkB e = true := by
          unfold hashOkB
          rw [hprev, hch]
          simp [hhash]
        rw [hprev, hhok]
        rw [hhash, ← hres1]
        simp [ihchain]
      · intro ev hev
        rw [hstep] at hev
        simp only [hoks] at hev
        rcases List.mem_cons.mp hev with rfl | hev2
        · exact hrun
        · exact ihrun ev hev2
      · rw [hstep]
        simp only [hoks]
        rw [ihfile]
        have hf1 : fileFor s1 run = fileFor s run ++ [e] := by
          rw [hs1]
          unfold fileFor
          simp only
          rw [flookup_fappend_self]
          cases flookup s.files run <;> simp
        rw [hf1, List.append_assoc]
        rfl
      · rw [hstep]
        simp only [hoks]
        rw [ihres, hres1, lastHashOr_cons]
        rw [hhash]

/-- A true `chainOk` gives the index-wise linkage of the claim. -/
theorem chainOk_indexed : ∀ (evs : List AuditEvent) (p : String), chainOk p evs = true →
    (0 < evs.length → (evs.getD 0 dummyEvent).prev_event_hash = p) ∧
    ∀ i, 0 < i → i < evs.length →
      (evs.getD i dummyEvent).prev_event_hash = (evs.getD (i - 1) dummyEvent).event_hash
  | [], p, _ => by
      constructor
      · intro h
        simp at h
      · intro i _ hi
        simp at hi
  | e :: t, p, h => by
      unfold chainOk at h
      simp only [Bool.and_eq_true, decide_eq_true_eq] at h
      obtain ⟨⟨hprev, _⟩, hchain⟩ := h
      have ih := chainOk_indexed t e.event_hash hchain
      constructor
      · intro _
        simpa using hprev
      · intro i hi hlen
        rcases i with _ | j
        · exact absurd hi (by omega)
        · rcases j with _ | j2
          · have h0 : 0 < t.length := by
              simp only [List.length_cons] at hlen
              omega
            have := ih.1 h0
            simpa using this
          · have hlt : j2 + 1 < t.length := by
              simp only [List.length_cons] at hlen
              omega
            have := ih.2 (j2 + 1) (by omega) hlt
            simp only [List.getD_cons_succ]
            simpa using this

/-- The verifier accepts every event of a correct chain. -/
theorem verifyGo_ok : ∀ (evs : List AuditEvent) (p : String) (idx : Nat) (acc : List AuditEvent),
    chainOk p evs = true → verifyGo p idx acc evs = (acc ++ evs, none)
  | [], p, idx, acc, _ => by simp [verifyGo]
  | e :: t, p, idx, acc, h => by
      unfold chainOk at h
      simp only [Bool.and_eq_true, decide_eq_true_eq] at h
      obtain ⟨⟨hprev, hhok⟩, hchain⟩ := h
      unfold hashOkB at hhok
      rcases hcn : chain_next e.prev_event_hash (payloadOf e) with er | rec
      · rw [hcn] at hhok
        simp at hhok
      · rw [hcn] at hhok
        simp only [decide_eq_true_eq] at hhok
        subst hhok
        unfold verifyGo
        rw [if_pos hprev, hcn]
        show (if e.event_hash = e.event_hash then verifyGo e.event_hash (idx + 1) (acc ++ [e]) t
          else (acc, some idx)) = (acc ++ e :: t, none)
        rw [if_pos rfl, verifyGo_ok t e.event_hash (idx + 1) (acc ++ [e]) hchain]
        simp

/-- C1: for a sequence of N ≥ 2 successful `log_event` calls for one run_id by
a single writer with no prior events for that run, the returned events satisfy
`event[i].prev_event_hash = event[i-1].event_hash` for `0 < i < N` and
`event[0].prev_event_hash = ""` (and all N calls do succeed). -/
theorem c1_chain_linkage (run : String) (calls : List CallIn) (ag : Agent) (s : Sys)
    (hgood : ∀ c ∈ calls, goodCall run c = true)
    (hN : 2 ≤ calls.length)
    (hcache : alookup ag.last_hash_by_run run = none)
    (hdbempty : rowsDataFor s.db run = []) :
    (∀ r ∈ (runSeq calls ag s).1, isOkE r.2 = true) ∧
    (okEventsOf (runSeq calls ag s).1).length = calls.length ∧
    ((okEventsOf (runSeq calls ag s).1).getD 0 dummyEvent).prev_event_hash = "" ∧
    ∀ i, 0 < i → i < (okEventsOf (runSeq calls ag s).1).length →
      ((okEventsOf (runSeq calls ag s).1).getD i dummyEvent).prev_event_hash =
        ((okEventsOf (runSeq calls ag s).1).getD (i - 1) dummyEvent).event_hash := by
  have hfilter : s.db.rows.filter (fun r => r.2.run_id = run) = [] := by
    have := hdbempty
    unfold rowsDataFor at this
    exact List.map_eq_nil_iff.mp this
  have hstate : resolveState ag s run = "" := by
    unfold resolveState
    rw [hcache]
    unfold get_last_audit_hash
    rw [hfilter]
    rfl
  obtain ⟨hok, hlen, hchain, _, _, _⟩ := runSeq_single run calls ag s hgood
  rw [hstate] at hchain
  have hidx := chainOk_indexed _ "" hchain
  refine ⟨hok, hlen, hidx.1 ?_, hidx.2⟩
  rw [hlen]
  omega

/-- From a clean start (no cache entry, no store rows, no file), a sequence of
good calls for one run leaves an append file that verifies as valid with one
event per call. -/
theorem verify_clean_run (run : String) (calls : List CallIn) (ag : Agent) (s : Sys)
    (hgood : ∀ c ∈ calls, goodCall run c = true)
    (hcache : alookup ag.last_hash_by_run run = none)
    (hdbempty : rowsDataFor s.db run = [])
    (hfile : fileFor s run = []) :
    (verify_chain (fileFor (runSeq calls ag s).2.2 run)).events = calls.length ∧
    (verify_chain (fileFor (runSeq calls ag s).2.2 run)).valid = true ∧
    (verify_chain (fileFor (runSeq calls ag s).2.2 run)).break_index = none := by
  have hfilter : s.db.rows.filter (fun r => r.2.run_id = run) = [] := by
    have := hdbempty
    unfold rowsDataFor at this
    exact List.map_eq_nil_iff.mp this
  have hstate : resolveState ag s run = "" := by
    unfold resolveState
    rw [hcache]
    unfold get_last_audit_hash
    rw [hfilter]
    rfl
  obtain ⟨_, hlen, hchain, _, hfileAfter, _⟩ := runSeq_single run calls ag s hgood
  rw [hstate] at hchain
  rw [hfile] at hfileAfter
  simp only [List.nil_append] at hfileAfter
  rw [hfileAfter]
  have hgo := verifyGo_ok (okEventsOf (runSeq calls ag s).1) "" 0 [] hchain
  simp only [List.nil_append] at hgo
  unfold verify_chain
  rw [hgo]
  exact ⟨hlen, rfl, rfl⟩

/-- C3: for every N ≥ 0, the append file produced by N successful `log_event`
calls for one fresh run verifies as `valid = true` with `events = N` (the
verifier recomputes every `event_hash` from the persisted fields and the
carried-forward expected previous hash and matches the stored value); in
particular a zero-length append file verifies as
`{run_id: none, events: 0, valid: true, break_index: none}`. -/
theorem c3_verify_round_trip (run : String) (calls : List CallIn) (ag : Agent) (s : Sys)
    (hgood : ∀ c ∈ calls, goodCall run c = true)
    (hcache : alookup ag.last_hash_by_run run = none)
    (hdbempty : rowsDataFor s.db run = [])
    (hfile : fileFor s run = []) :
    (verify_chain (fileFor (runSeq calls ag s).2.2 run)).events = calls.length ∧
    (verify_chain (fileFor (runSeq calls ag s).2.2 run)).valid = true ∧
    (verify_chain (fileFor (runSeq calls ag s).2.2 run)).break_index = none ∧
    verify_chain [] = ⟨none, 0, true, none⟩ := by
  obtain ⟨h1, h2, h3⟩ := verify_clean_run run calls ag s hgood hcache hdbempty hfile
  exact ⟨h1, h2, h3, rfl⟩

theorem badFrom_zero_list (p : String) (l : List AuditEvent) :
    badFrom p l 0 =
      !(decide ((l.getD 0 dummyEvent).prev_event_hash = p) && hashOkB (l.getD 0 dummyEvent)) := rfl

theorem badFrom_succ_list (p : String) (l : List AuditEvent) (k : Nat) :
    badFrom p l (k + 1) =
      !(decide ((l.getD (k + 1) dummyEvent).prev_event_hash =
          (l.getD k dummyEvent).event_hash) && hashOkB (l.getD (k + 1) dummyEvent)) := rfl

theorem badFrom_cons_succ (p : String) (e : AuditEvent) (t : List AuditEvent) (k : Nat) :
    badFrom p (e :: t) (k + 1) = badFrom e.event_hash t k := by
  rcases k with _ | k2
  · rw [badFrom_succ_list, badFrom_zero_list]
    simp [List.getD_cons_succ]
  · rw [badFrom_succ_list, badFrom_succ_list]
    simp [List.getD_cons_succ]

theorem getD_set_ne : ∀ (l : List AuditEvent) (i j : Nat) (v d : AuditEvent), i ≠ j →
    (l.set i v).getD j d = l.getD j d
  | [], _, _, _, _, _ => by simp
  | a :: t, 0, j, v, d, hne => by
      rcases j with _ | j2
      · exact absurd rfl hne
      · simp [List.getD_cons_succ]
  | a :: t, i2 + 1, j, v, d, hne => by
      rcases j with _ | j2
      · simp
      · simp only [List.set_cons_succ, List.getD_cons_succ]
        exact getD_set_ne t i2 j2 v d (fun h => hne (by omega))

theorem getD_set_self : ∀ (l : List AuditEvent) (i : Nat) (v d : AuditEvent), i < l.length →
    (l.set i v).getD i d = v
  | [], i, v, d, h => by simp at h
  | a :: t, 0, v, d, _ => rfl
  | a :: t, i2 + 1, v, d, h => by
      simp only [List.set_cons_succ, List.getD_cons_succ]
      exact getD_set_self t i2 v d (by simpa using h)

/-- The verifier stops exactly at the first inconsistent position of a
segment: it accepts the `i` events before it and reports index `idx + i`. -/
theorem verifyGo_break : ∀ (evs : List AuditEvent) (i : Nat) (p : String) (idx : Nat)
    (acc : List AuditEvent),
    (∀ j, j < i → badFrom p evs j = false) → i < evs.length → badFrom p evs i = true →
    verifyGo p idx acc evs = (acc ++ evs.take i, some (idx + i))
  | [], i, p, idx, acc, _, hlen, _ => by simp at hlen
  | e :: t, 0, p, idx, acc, _, _, hbad => by
      rw [badFrom_zero_list] at hbad
      simp only [List.getD_cons_zero, Bool.not_eq_true', Bool.and_eq_false_iff,
        decide_eq_false_iff_not] at hbad
      unfold verifyGo
      by_cases hprev : e.prev_event_hash = p
      · rw [if_pos hprev]
        have hhok : hashOkB e = false := by
          rcases hbad with h1 | h2
          · exact absurd hprev h1
          · exact h2
        unfold hashOkB at hhok
        rcases hcn : chain_next e.prev_event_hash (payloadOf e) with er | rec
        · show (acc, some idx) = (acc ++ (e :: t).take 0, some (idx + 0))
          simp
        · rw [hcn] at hhok
          simp only [decide_eq_false_iff_not] at hhok
          show (if rec = e.event_hash then verifyGo e.event_hash (idx + 1) (acc ++ [e]) t
            else (acc, some idx)) = (acc ++ (e :: t).take 0, some (idx + 0))
          rw [if_neg hhok]
          simp
      · rw [if_neg hprev]
        simp
  | e :: t, i2 + 1, p, idx, acc, hgoodpfx, hlen, hbad => by
      have h0 : badFrom p (e :: t) 0 = false := hgoodpfx 0 (by omega)
      rw [badFrom_zero_list] at h0
      simp only [List.getD_cons_zero, Bool.not_eq_false', Bool.and_eq_true,
        decide_eq_true_eq] at h0
      obtain ⟨hprev, hhok⟩ := h0
      unfold hashOkB at hhok
      rcases hcn : chain_next e.prev_event_hash (payloadOf e) with er | rec
      · rw [hcn] at hhok
        simp at hhok
      · rw [hcn] at hhok
        simp only [decide_eq_true_eq] at hhok
        subst hhok
        unfold verifyGo
        rw [if_pos hprev, hcn]
        show (if e.event_hash = e.event_hash then verifyGo e.event_hash (idx + 1) (acc ++ [e]) t
          else (acc, some idx)) = (acc ++ (e :: t).take (i2 + 1), some (idx + (i2 + 1)))
        rw [if_pos rfl]
        have ih := verifyGo_break t i2 e.event_hash (idx + 1) (acc ++ [e])
          (fun j hj => by
            have := hgoodpfx (j + 1) (by omega)
            rwa [badFrom_cons_succ] at this)
          (by simpa using hlen)
          (by rwa [badFrom_cons_succ] at hbad)
        rw [ih, List.append_assoc]
        have harith : idx + 1 + i2 = idx + (i2 + 1) := by omega
        rw [harith]
        simp [List.take_succ_cons]

/-- A verification pass that reports no break certifies every position. -/
theorem verifyGo_none : ∀ (evs : List AuditEvent) (p : String) (idx : Nat)
    (acc acc2 : List AuditEvent),
    verifyGo p idx acc evs = (acc2, none) → ∀ j, j < evs.length → badFrom p evs j = false
  | [], _, _, _, _, _, j, hj => by simp at hj
  | e :: t, p, idx, acc, acc2, hgo, j, hj => by
      unfold verifyGo at hgo
      by_cases hprev : e.prev_event_hash = p
      · rw [if_pos hprev] at hgo
        rcases hcn : chain_next e.prev_event_hash (payloadOf e) with er | rec
        · rw [hcn] at hgo
          simp at hgo
        · rw [hcn] at hgo
          by_cases hrec : rec = e.event_hash
          · have hgo2 : verifyGo e.event_hash (idx + 1) (acc ++ [e]) t = (acc2, none) := by
              revert hgo
              show (if rec = e.event_hash then verifyGo e.event_hash (idx + 1) (acc ++ [e]) t
                else (acc, some idx)) = (acc2, none) →
                verifyGo e.event_hash (idx + 1) (acc ++ [e]) t = (acc2, none)
              rw [if_pos hrec]
              exact id
            rcases j with _ | j2
            · rw [badFrom_zero_list]
              simp only [List.getD_cons_zero]
              have hhok : hashOkB e = true := by
                unfold hashOkB
                rw [hcn]
                simp [hrec]
              simp [hprev, hhok]
            · rw [badFrom_cons_succ]
              exact verifyGo_none t e.event_hash (idx + 1) (acc ++ [e]) acc2 hgo2 j2
                (by simpa using hj)
          · revert hgo
            show (if rec = e.event_hash then verifyGo e.event_hash (idx + 1) (acc ++ [e]) t
              else (acc, some idx)) = (acc2, none) → _
            rw [if_neg hrec]
            intro hgo
            simp at hgo
      · rw [if_neg hprev] at hgo
        simp at hgo

/-- C5: verification reports `valid = false` with `break_index` equal to the
zero-based position of the first inconsistent event (an event whose
`prev_event_hash` differs from the preceding event's `event_hash` — from `""`
at position 0 — or whose stored `event_hash` differs from the recomputed
digest); in particular, in a file that verifies as valid, overwriting only
`prev_event_hash` of the event at position `i` with any other value makes
verification break exactly at index `i`.  (The `repF` premise says every
event is JSON-representable, as every line read back by the verifier is.) -/
theorem c5_tamper_break_index (evs : List AuditEvent)
    (_hrep : ∀ e ∈ evs, repF e.details = true) :
    (∀ i, isFirstBad evs i →
      (verify_chain evs).valid = false ∧ (verify_chain evs).break_index = some i) ∧
    (∀ i x, (verify_chain evs).valid = true → i < evs.length →
      x ≠ (evs.getD i dummyEvent).prev_event_hash →
      (verify_chain (evs.set i (withPrev (evs.getD i dummyEvent) x))).valid = false ∧
      (verify_chain (evs.set i (withPrev (evs.getD i dummyEvent) x))).break_index = some i) := by
  have part1 : ∀ (l : List AuditEvent) (i : Nat), isFirstBad l i →
      (verify_chain l).valid = false ∧ (verify_chain l).break_index = some i := by
    intro l i hfb
    obtain ⟨hlen, hbad, hpfx⟩ := hfb
    have hgo := verifyGo_break l i "" 0 [] (fun j hj => hpfx j hj) hlen hbad
    unfold verify_chain
    rw [hgo]
    simp
  refine ⟨fun i hfb => part1 evs i hfb, ?_⟩
  intro i x hvalid hlen hne
  have hnone : ∃ acc2, verifyGo "" 0 [] evs = (acc2, none) := by
    unfold verify_chain at hvalid
    rcases hgo : verifyGo "" 0 [] evs with ⟨acc2, brk⟩
    rw [hgo] at hvalid
    simp only at hvalid
    rcases brk with _ | b
    · exact ⟨acc2, rfl⟩
    · simp at hvalid
  obtain ⟨acc2, hgo⟩ := hnone
  have hall : ∀ j, j < evs.length → badFrom "" evs j = false :=
    verifyGo_none evs "" 0 [] acc2 hgo
  have hbad2 : badFrom "" (evs.set i (withPrev (evs.getD i dummyEvent) x)) i = true := by
    rcases i with _ | i2
    · rw [badFrom_zero_list, getD_set_self evs 0 _ dummyEvent hlen]
      have hgood_i := hall 0 hlen
      rw [badFrom_zero_list] at hgood_i
      simp only [Bool.not_eq_false', Bool.and_eq_true, decide_eq_true_eq] at hgood_i
      have hx : x ≠ "" := by
        rw [hgood_i.1] at hne
        exact hne
      have hpx : (withPrev (evs.getD 0 dummyEvent) x).prev_event_hash = x := rfl
      rw [hpx]
      simp only [Bool.not_eq_true', Bool.and_eq_false_iff, decide_eq_false_iff_not,
        Bool.not_eq_false']
      exact Or.inl hx
    · rw [badFrom_succ_list, getD_set_self evs (i2 + 1) _ dummyEvent hlen,
        getD_set_ne evs (i2 + 1) i2 _ dummyEvent (by omega)]
      have hgood_i := hall (i2 + 1) hlen
      rw [badFrom_succ_list] at hgood_i
      simp only [Bool.not_eq_false', Bool.and_eq_true, decide_eq_true_eq] at hgood_i
      have hx : x ≠ (evs.getD i2 dummyEvent).event_hash := by
        rw [← hgood_i.1]
        exact hne
      have hpx : (withPrev (evs.getD (i2 + 1) dummyEvent) x).prev_event_hash = x := rfl
      rw [hpx]
      simp only [Bool.not_eq_true', Bool.and_eq_false_iff, decide_eq_false_iff_not,
        Bool.not_eq_false']
      exact Or.inl hx
  have hpfx2 : ∀ j, j < i →
      badFrom "" (evs.set i (withPrev (evs.getD i dummyEvent) x)) j = false := by
    intro j hj
    have hgood_j := hall j (by omega)
    rcases j with _ | j2
    · rw [badFrom_zero_list] at hgood_j ⊢
      rw [getD_set_ne evs i 0 _ dummyEvent (by omega)]
      exact hgood_j
    · rw [badFrom_succ_list] at hgood_j ⊢
      rw [getD_set_ne evs i (j2 + 1) _ dummyEvent (by omega),
        getD_set_ne evs i j2 _ dummyEvent (by omega)]
      exact hgood_j
  exact part1 _ i ⟨by simpa using hlen, hbad2, hpfx2⟩

theorem rowsAsc_append_one : ∀ (l : List (Nat × AuditRow)) (x : Nat × AuditRow),
    rowsAsc l = true → (∀ r ∈ l, r.1 < x.1) → rowsAsc (l ++ [x]) = true
  | [], x, _, _ => rfl
  | [a], x, _, hlt => by
      simp only [List.cons_append, List.nil_append, rowsAsc, Bool.and_eq_true, decide_eq_true_eq]
      exact ⟨hlt a (List.mem_cons_self a []), trivial⟩
  | a :: b :: t, x, hasc, hlt => by
      simp only [rowsAsc, Bool.and_eq_true] at hasc
      simp only [List.cons_append, rowsAsc, Bool.and_eq_true]
      refine ⟨hasc.1, ?_⟩
      exact rowsAsc_append_one (b :: t) x hasc.2
        (fun r hr => hlt r (List.mem_cons_of_mem a hr))

/-- Appending a row keeps the store well-formed. -/
theorem wf_append (db : DBState) (e : AuditEvent) (hwf : wfDB db = true) :
    wfDB (append_audit db e) = true := by
  simp only [wfDB, Bool.and_eq_true, List.all_eq_true, decide_eq_true_eq] at hwf ⊢
  obtain ⟨hasc, hbound⟩ := hwf
  constructor
  · exact rowsAsc_append_one db.rows (db.nextId, rowOf e) hasc (fun r hr => hbound r hr)
  · intro r hr
    unfold append_audit at hr
    simp only at hr
    rcases List.mem_append.mp hr with h1 | h2
    · exact Nat.lt_trans (hbound r h1) (Nat.lt_succ_self _)
    · rcases List.mem_singleton.mp h2 with rfl
      exact Nat.lt_succ_self _

/-- The store rows of one run after an insert. -/
theorem rowsDataFor_append (db : DBState) (e : AuditEvent) (run : String) :
    rowsDataFor (append_audit db e) run =
      rowsDataFor db run ++ (if e.run_id = run then [rowOf e] else []) := by
  unfold rowsDataFor append_audit
  simp only [List.filter_append, List.map_append]
  by_cases h : e.run_id = run
  · have : (rowOf e).run_id = run := h
    simp [List.filter, this, h]
  · have : ¬(rowOf e).run_id = run := h
    simp [List.filter, this, h]

/-- Forward equation: a failing recovery read. -/
theorem log_event_err_resolve (env : Env) (a : LogArgs) (ag : Agent) (s : Sys) (er : Err)
    (hres : resolve_prev_hash env ag s a.run_id = .error er) :
    log_event env a ag s = (.error er, ag, s) := by
  unfold log_event
  rw [hres]

/-- Forward equation: a failing payload encoding. -/
theorem log_event_err_chain (env : Env) (a : LogArgs) (ag : Agent) (s : Sys) (prev : String)
    (er : Err)
    (hres : resolve_prev_hash env ag s a.run_id = .ok prev)
    (hch : chain_next prev
      (eventDict a.run_id a.step a.status env.ts_iso env.ts_ns a.input_digest
        a.output_digest (a.artifact_paths.getD []) a.details prev) = .error er) :
    log_event env a ag s = (.error er, ag, s) := by
  unfold log_event
  rw [hres]
  simp only
  rw [hch]

/-- Forward equation: an invalid `status` makes the pydantic `AuditEvent`
constructor raise after the hash computation and before any write. -/
theorem log_event_err_validation (env : Env) (a : LogArgs) (ag : Agent) (s : Sys)
    (prev ehash : String)
    (hres : resolve_prev_hash env ag s a.run_id = .ok prev)
    (hch : chain_next prev
      (eventDict a.run_id a.step a.status env.ts_iso env.ts_ns a.input_digest
        a.output_digest (a.artifact_paths.getD []) a.details prev) = .ok ehash)
    (hst : statusOk a.status = false) :
    log_event env a ag s = (.error .validation, ag, s) := by
  unfold log_event
  rw [hres]
  simp only
  rw [hch]
  simp [hst]

/-- Forward equation: a failing file append (nothing yet written). -/
theorem log_event_err_file (env : Env) (a : LogArgs) (ag : Agent) (s : Sys) (prev ehash : String)
    (hres : resolve_prev_hash env ag s a.run_id = .ok prev)
    (hch : chain_next prev
      (eventDict a.run_id a.step a.status env.ts_iso env.ts_ns a.input_digest
        a.output_digest (a.artifact_paths.getD []) a.details prev) = .ok ehash)
    (hst : statusOk a.status = true)
    (hfw : env.fileWrite = false) :
    log_event env a ag s = (.error .fileWrite, ag, s) := by
  unfold log_event
  rw [hres]
  simp only
  rw [hch]
  simp [hst, hfw]

/-- Forward equation: a failing store write after a successful file append. -/
theorem log_event_err_db (env : Env) (a : LogArgs) (ag : Agent) (s : Sys) (prev ehash : String)
    (hres : resolve_prev_hash env ag s a.run_id = .ok prev)
    (hch : chain_next prev
      (eventDict a.run_id a.step a.status env.ts_iso env.ts_ns a.input_digest
        a.output_digest (a.artifact_paths.getD []) a.details prev) = .ok ehash)
    (hst : statusOk a.status = true)
    (hfw : env.fileWrite = true) (hdw : env.dbWrite = false) :
    log_event env a ag s =
      (.error .dbWrite, ag, ⟨fappend s.files a.run_id (mkEvent env a prev ehash), s.db⟩) := by
  unfold log_event
  rw [hres]
  simp only
  rw [hch]
  simp [hst, hfw, hdw, mkEvent]

/-- `log_event` for one run is determined by, and only changes, that run's
projection of the state; well-formedness of the store is preserved. -/
theorem log_event_proj_eq (env : Env) (a : LogArgs) (ag : Agent) (s : Sys)
    (ag9 : Agent) (s9 : Sys)
    (hwf : wfDB s.db = true) (hwf9 : wfDB s9.db = true)
    (hproj : projA a.run_id ag s = projA a.run_id ag9 s9) :
    (log_event env a ag s).1 = (log_event env a ag9 s9).1 ∧
    projA a.run_id (log_event env a ag s).2.1 (log_event env a ag s).2.2 =
      projA a.run_id (log_event env a ag9 s9).2.1 (log_event env a ag9 s9).2.2 ∧
    wfDB (log_event env a ag s).2.2.db = true ∧
    wfDB (log_event env a ag9 s9).2.2.db = true := by
  have hproj0 := hproj
  unfold projA at hproj
  simp only [Prod.mk.injEq] at hproj
  obtain ⟨hcacheEq, hfileEq, hrowsEq⟩ := hproj
  have hlastEq : get_last_audit_hash s.db a.run_id = get_last_audit_hash s9.db a.run_id := by
    rw [get_last_by_append_order s.db a.run_id hwf, get_last_by_append_order s9.db a.run_id hwf9,
      hrowsEq]
  have hresEq : resolve_prev_hash env ag s a.run_id = resolve_prev_hash env ag9 s9 a.run_id := by
    unfold resolve_prev_hash
    rw [hcacheEq, hlastEq]
  rcases hres : resolve_prev_hash env ag s a.run_id with er | prev
  · have hres9 : resolve_prev_hash env ag9 s9 a.run_id = .error er := by
      rw [← hresEq]
      exact hres
    rw [log_event_err_resolve env a ag s er hres, log_event_err_resolve env a ag9 s9 er hres9]
    exact ⟨rfl, hproj0, hwf, hwf9⟩
  · have hres9 : resolve_prev_hash env ag9 s9 a.run_id = .ok prev := by
      rw [← hresEq]
      exact hres
    rcases hch : chain_next prev
        (eventDict a.run_id a.step a.status env.ts_iso env.ts_ns a.input_digest
          a.output_digest (a.artifact_paths.getD []) a.details prev) with er | ehash
    · rw [log_event_err_chain env a ag s prev er hres hch,
        log_event_err_chain env a ag9 s9 prev er hres9 hch]
      exact ⟨rfl, hproj0, hwf, hwf9⟩
    · rcases hst : statusOk a.status with _ | _
      · rw [log_event_err_validation env a ag s prev ehash hres hch hst,
          log_event_err_validation env a ag9 s9 prev ehash hres9 hch hst]
        exact ⟨rfl, hproj0, hwf, hwf9⟩
      · rcases hfw : env.fileWrite with _ | _
        · rw [log_event_err_file env a ag s prev ehash hres hch hst hfw,
            log_event_err_file env a ag9 s9 prev ehash hres9 hch hst hfw]
          exact ⟨rfl, hproj0, hwf, hwf9⟩
        · rcases hdw : env.dbWrite with _ | _
          · rw [log_event_err_db env a ag s prev ehash hres hch hst hfw hdw,
              log_event_err_db env a ag9 s9 prev ehash hres9 hch hst hfw hdw]
            refine ⟨rfl, ?_, hwf, hwf9⟩
            unfold projA fileFor
            simp only
            rw [hcacheEq, hrowsEq, flookup_fappend_self, flookup_fappend_self]
            unfold fileFor at hfileEq
            rw [hfileEq]
          · rw [log_event_ok_eq env a ag s prev ehash hres hch hst hfw hdw,
              log_event_ok_eq env a ag9 s9 prev ehash hres9 hch hst hfw hdw]
            refine ⟨rfl, ?_, wf_append s.db _ hwf, wf_append s9.db _ hwf9⟩
            unfold projA fileFor
            simp only
            rw [alookup_aset_self, alookup_aset_self, flookup_fappend_self, flookup_fappend_self,
              rowsDataFor_append, rowsDataFor_append, hrowsEq]
            unfold fileFor at hfileEq
            rw [hfileEq]

/-- `log_event` for another run leaves this run's projection untouched and
preserves store well-formedness. -/
theorem log_event_other_run (A : String) (env : Env) (a : LogArgs) (ag : Agent) (s : Sys)
    (hne : a.run_id ≠ A) (hwf : wfDB s.db = true) :
    projA A (log_event env a ag s).2.1 (log_event env a ag s).2.2 = projA A ag s ∧
    wfDB (log_event env a ag s).2.2.db = true := by
  rcases hres : resolve_prev_hash env ag s a.run_id with er | prev
  · rw [log_event_err_resolve env a ag s er hres]
    exact ⟨rfl, hwf⟩
  · rcases hch : chain_next prev
        (eventDict a.run_id a.step a.status env.ts_iso env.ts_ns a.input_digest
          a.output_digest (a.artifact_paths.getD []) a.details prev) with er | ehash
    · rw [log_event_err_chain env a ag s prev er hres hch]
      exact ⟨rfl, hwf⟩
    · rcases hst : statusOk a.status with _ | _
      · rw [log_event_err_validation env a ag s prev ehash hres hch hst]
        exact ⟨rfl, hwf⟩
      · rcases hfw : env.fileWrite with _ | _
        · rw [log_event_err_file env a ag s prev ehash hres hch hst hfw]
          exact ⟨rfl, hwf⟩
        · rcases hdw : env.dbWrite with _ | _
          · rw [log_event_err_db env a ag s prev ehash hres hch hst hfw hdw]
            refine ⟨?_, hwf⟩
            unfold projA fileFor
            simp only
            rw [flookup_fappend_other s.files a.run_id A _ (Ne.symm hne)]
          · rw [log_event_ok_eq env a ag s prev ehash hres hch hst hfw hdw]
            refine ⟨?_, wf_append s.db _ hwf⟩
            unfold projA fileFor
            simp only
            rw [alookup_aset_other ag.last_hash_by_run a.run_id ehash A (Ne.symm hne),
              flookup_fappend_other s.files a.run_id A _ (Ne.symm hne),
              rowsDataFor_append]
            simp only [mkEvent, if_neg hne, List.append_nil]

/-- Interleaving: the outcomes for run `A` of any call sequence, from any two
states agreeing on `A`'s projection, equal the outcomes of the `A`-only
subsequence, and the final states again agree on `A`'s projection. -/
theorem runSeq_filter (A : String) : ∀ (calls : List CallIn) (ag : Agent) (s : Sys)
    (ag9 : Agent) (s9 : Sys),
    wfDB s.db = true → wfDB s9.db = true → projA A ag s = projA A ag9 s9 →
    resultsFor A (runSeq calls ag s).1 = resultsFor A (runSeq (callsFor A calls) ag9 s9).1 ∧
    projA A (runSeq calls ag s).2.1 (runSeq calls ag s).2.2 =
      projA A (runSeq (callsFor A calls) ag9 s9).2.1 (runSeq (callsFor A calls) ag9 s9).2.2 ∧
    wfDB (runSeq calls ag s).2.2.db = true ∧
    wfDB (runSeq (callsFor A calls) ag9 s9).2.2.db = true
  | [], ag, s, ag9, s9, hwf, hwf9, hproj => ⟨rfl, hproj, hwf, hwf9⟩
  | c :: rest, ag, s, ag9, s9, hwf, hwf9, hproj => by
      by_cases hA : c.args.run_id = A
      · have hkeep : callsFor A (c :: rest) = c :: callsFor A rest := by
          unfold callsFor
          simp [List.filter, hA]
        have hprojc : projA c.args.run_id ag s = projA c.args.run_id ag9 s9 := by
          rw [hA]
          exact hproj
        obtain ⟨hr1, hproj1, hwf1, hwf19⟩ :=
          log_event_proj_eq c.env c.args ag s ag9 s9 hwf hwf9 hprojc
        rcases hle : log_event c.env c.args ag s with ⟨r, ag1, s1⟩
        rcases hle9 : log_event c.env c.args ag9 s9 with ⟨r9, ag19, s19⟩
        rw [hle, hle9] at hr1 hproj1
        rw [hle] at hwf1
        rw [hle9] at hwf19
        simp only at hr1 hproj1 hwf1 hwf19
        have hprojA1 : projA A ag1 s1 = projA A ag19 s19 := by
          rw [← hA]
          exact hproj1
        obtain ⟨ihres, ihproj, ihwf, ihwf9⟩ :=
          runSeq_filter A rest ag1 s1 ag19 s19 hwf1 hwf19 hprojA1
        rcases hrs : runSeq rest ag1 s1 with ⟨rs, ag2, s2⟩
        rcases hrs9 : runSeq (callsFor A rest) ag19 s19 with ⟨rs9, ag29, s29⟩
        rw [hrs, hrs9] at ihres ihproj
        rw [hrs] at ihwf
        rw [hrs9] at ihwf9
        simp only at ihres ihproj ihwf ihwf9
        have hstep : runSeq (c :: rest) ag s = ((c.args.run_id, r) :: rs, ag2, s2) := by
          unfold runSeq
          rw [hle]
          simp only [hrs]
        have hstep9 : runSeq (callsFor A (c :: rest)) ag9 s9 =
            ((c.args.run_id, r9) :: rs9, ag29, s29) := by
          rw [hkeep]
          unfold runSeq
          rw [hle9]
          simp only [hrs9]
        rw [hstep, hstep9]
        refine ⟨?_, ihproj, ihwf, ihwf9⟩
        unfold resultsFor
        simp only [List.filterMap_cons, if_pos hA]
        rw [hr1]
        unfold resultsFor at ihres
        rw [ihres]
      · have hdrop : callsFor A (c :: rest) = callsFor A rest := by
          unfold callsFor
          simp [List.filter, hA]
        obtain ⟨hproj1, hwf1⟩ := log_event_other_run A c.env c.args ag s hA hwf
        rcases hle : log_event c.env c.args ag s with ⟨r, ag1, s1⟩
        rw [hle] at hproj1 hwf1
        simp only at hproj1 hwf1
        obtain ⟨ihres, ihproj, ihwf, ihwf9⟩ :=
          runSeq_filter A rest ag1 s1 ag9 s9 hwf1 hwf9 (hproj1.trans hproj)
        rcases hrs : runSeq rest ag1 s1 with ⟨rs, ag2, s2⟩
        rw [hrs] at ihres ihproj ihwf
        simp only at ihres ihproj ihwf
        have hstep : runSeq (c :: rest) ag s = ((c.args.run_id, r) :: rs, ag2, s2) := by
          unfold runSeq
          rw [hle]
          simp only [hrs]
        rw [hstep, hdrop]
        refine ⟨?_, ihproj, ihwf, ihwf9⟩
        unfold resultsFor
        simp only [List.filterMap_cons, if_neg hA]
        unfold resultsFor at ihres
        rw [ihres]

/-- The events of a run are the successful outcomes among its results. -/
theorem eventsFor_resultsFor (A : String) : ∀ rs : List (String × Except Err AuditEvent),
    eventsFor A rs =
      (resultsFor A rs).filterMap (fun r => match r with | .ok e => some e | .error _ => none)
  | [] => rfl
  | p :: rest => by
      have ih := eventsFor_resultsFor A rest
      unfold eventsFor resultsFor at ih ⊢
      by_cases h : p.1 = A
      · rcases hp2 : p.2 with er | e
        · simp [List.filterMap_cons, h, hp2, ih]
        · simp [List.filterMap_cons, h, hp2, ih]
      · simp [List.filterMap_cons, h, ih]

/-- A call that is good for run `B` is addressed to `B`. -/
theorem goodCall_run (B : String) (c : CallIn) (h : goodCall B c = true) :
    c.args.run_id = B := by
  simp only [goodCall, Bool.and_eq_true, decide_eq_true_eq] at h
  exact h.1.1.1.1.1

/-- C9: interleaving `log_event` calls for distinct runs is independence:
(1) from any state, the events produced for run A by an interleaved call
sequence are exactly those produced when all other runs' calls are absent
(timestamps are call inputs, hence held fixed); (2) interleaving good calls
for two distinct runs from a fresh system yields two independently valid
chains. -/
theorem c9_run_independence :
    (∀ (A : String) (calls : List CallIn) (ag : Agent) (s : Sys), wfDB s.db = true →
      eventsFor A (runSeq calls ag s).1 = eventsFor A (runSeq (callsFor A calls) ag s).1) ∧
    (∀ (A B : String) (calls : List CallIn), A ≠ B →
      (∀ c ∈ calls, goodCall A c = true ∨ goodCall B c = true) →
      (verify_chain (fileFor (runSeq calls initAgent initSys).2.2 A)).valid = true ∧
      (verify_chain (fileFor (runSeq calls initAgent initSys).2.2 B)).valid = true) := by
  have pick : ∀ (X : String) (calls : List CallIn),
      (∀ c ∈ calls, goodCall X c = true ∨ (∃ Y, Y ≠ X ∧ goodCall Y c = true)) →
      ∀ c ∈ callsFor X calls, goodCall X c = true := by
    intro X calls hgood c hc
    have hmem := List.mem_filter.mp hc
    rcases hgood c hmem.1 with h | ⟨Y, hYne, hY⟩
    · exact h
    · exfalso
      have h1 : c.args.run_id = X := by
        have := hmem.2
        simpa using this
      have h2 : c.args.run_id = Y := goodCall_run Y c hY
      exact hYne (h2 ▸ h1)
  have valid_part : ∀ (X : String) (calls : List CallIn),
      (∀ c ∈ callsFor X calls, goodCall X c = true) →
      (verify_chain (fileFor (runSeq calls initAgent initSys).2.2 X)).valid = true := by
    intro X calls hgoods
    have hwf0 : wfDB initSys.db = true := rfl
    obtain ⟨_, hprojF, _, _⟩ :=
      runSeq_filter X calls initAgent initSys initAgent initSys hwf0 hwf0 rfl
    have hfileEq : fileFor (runSeq calls initAgent initSys).2.2 X =
        fileFor (runSeq (callsFor X calls) initAgent initSys).2.2 X := by
      unfold projA at hprojF
      simp only [Prod.mk.injEq] at hprojF
      exact hprojF.2.1
    rw [hfileEq]
    exact (verify_clean_run X (callsFor X calls) initAgent initSys hgoods rfl rfl rfl).2.1
  constructor
  · intro A calls ag s hwf
    obtain ⟨hres, _, _, _⟩ := runSeq_filter A calls ag s ag s hwf hwf rfl
    rw [eventsFor_resultsFor, eventsFor_resultsFor, hres]
  · intro A B calls hAB hgood
    constructor
    · refine valid_part A calls (pick A calls ?_)
      intro c hc
      rcases hgood c hc with h | h
      · exact Or.inl h
      · exact Or.inr ⟨B, Ne.symm hAB, h⟩
    · refine valid_part B calls (pick B calls ?_)
      intro c hc
      rcases hgood c hc with h | h
      · exact Or.inr ⟨A, hAB, h⟩
      · exact Or.inl h

theorem natDecAux_acc : ∀ (fuel n : Nat) (acc : List Nat),
    natDecAux fuel n acc = natDecAux fuel n [] ++ acc
  | 0, n, acc => rfl
  | fuel + 1, n, acc => by
      unfold natDecAux
      by_cases h : n < 10
      · simp [h]
      · rw [if_neg h, if_neg h, natDecAux_acc fuel (n / 10) ((48 + n % 10) :: acc),
          natDecAux_acc fuel (n / 10) [48 + n % 10]]
        simp

theorem natDecAux_step (fuel n : Nat) (h : ¬n < 10) :
    natDecAux (fuel + 1) n [] = natDecAux fuel (n / 10) [] ++ [48 + n % 10] := by
  have h1 : natDecAux (fuel + 1) n [] = natDecAux fuel (n / 10) [48 + n % 10] := by
    conv_lhs => unfold natDecAux
    rw [if_neg h]
  rw [h1, natDecAux_acc]

theorem natDecAux_small (n : Nat) (h : n < 10) : ∀ f : Nat, natDecAux f n [] = [48 + n]
  | 0 => by
      unfold natDecAux
      rw [Nat.mod_eq_of_lt h]
  | f + 1 => by
      unfold natDecAux
      rw [if_pos h]

/-- The fuel is irrelevant once it is at least the number. -/
theorem natDecAux_fuel (n : Nat) : ∀ f, n ≤ f → natDecAux f n [] = natDec n := by
  induction n using Nat.strongRecOn with
  | _ n ih =>
      intro f hf
      by_cases h : n < 10
      · rw [natDecAux_small n h f]
        show _ = natDecAux n n []
        rw [natDecAux_small n h n]
      · rcases f with _ | g
        · omega
        · have step1 : natDecAux (g + 1) n [] = natDecAux g (n / 10) [] ++ [48 + n % 10] :=
            natDecAux_step g n h
          have step2 : natDecAux g (n / 10) [] = natDec (n / 10) :=
            ih (n / 10) (by omega) g (by omega)
          have step3 : natDec n = natDec (n / 10) ++ [48 + n % 10] := by
            rcases n with _ | m
            · omega
            · show natDecAux (m + 1) (m + 1) [] = _
              rw [natDecAux_step m (m + 1) h, ih ((m + 1) / 10) (by omega) m (by omega)]
          rw [step1, step2, step3]

theorem natDec_lt10 (n : Nat) (h : n < 10) : natDec n = [48 + n] :=
  natDecAux_small n h n

theorem natDec_ge10 (n : Nat) (h : 10 ≤ n) : natDec n = natDec (n / 10) ++ [48 + n % 10] := by
  rcases n with _ | m
  · omega
  · show natDecAux (m + 1) (m + 1) [] = _
    rw [natDecAux_step m (m + 1) (by omega), natDecAux_fuel ((m + 1) / 10) m (by omega)]

theorem natDec_digits (n : Nat) : ∀ b ∈ natDec n, isDigitB b = true := by
  induction n using Nat.strongRecOn with
  | _ n ih =>
      by_cases h : n < 10
      · rw [natDec_lt10 n h]
        intro b hb
        rcases List.mem_singleton.mp hb with rfl
        simp only [isDigitB, Bool.and_eq_true, decide_eq_true_eq]
        omega
      · rw [natDec_ge10 n (by omega)]
        intro b hb
        rcases List.mem_append.mp hb with h1 | h2
        · exact ih (n / 10) (by omega) b h1
        · rcases List.mem_singleton.mp h2 with rfl
          simp only [isDigitB, Bool.and_eq_true, decide_eq_true_eq]
          have := Nat.mod_lt n (show 0 < 10 by omega)
          omega

theorem natDec_ne_nil (n : Nat) : natDec n ≠ [] := by
  by_cases h : n < 10
  · rw [natDec_lt10 n h]
    simp
  · rw [natDec_ge10 n (by omega)]
    simp

theorem digitsVal_natDec (n : Nat) : digitsVal (natDec n) = n := by
  induction n using Nat.strongRecOn with
  | _ n ih =>
      by_cases h : n < 10
      · rw [natDec_lt10 n h]
        unfold digitsVal
        simp
      · rw [natDec_ge10 n (by omega)]
        unfold digitsVal
        rw [List.foldl_append]
        have := ih (n / 10) (by omega)
        unfold digitsVal at this
        rw [this]
        simp only [List.foldl_cons, List.foldl_nil]
        omega

theorem takeDigitsB_stop (r : List Nat) (hr : delimB r = true) : takeDigitsB r = ([], r) := by
  rcases r with _ | ⟨b, t⟩
  · rfl
  · unfold delimB at hr
    simp only [Bool.or_eq_true, decide_eq_true_eq] at hr
    have hb : isDigitB b = false := by
      simp only [isDigitB, Bool.and_eq_false_iff, decide_eq_false_iff_not]
      omega
    unfold takeDigitsB
    rw [hb]
    simp

theorem takeDigitsB_run : ∀ (ds r : List Nat), (∀ b ∈ ds, isDigitB b = true) →
    takeDigitsB r = ([], r) → takeDigitsB (ds ++ r) = (ds, r)
  | [], r, _, hr => by simpa using hr
  | b :: t, r, hds, hr => by
      have hb : isDigitB b = true := hds b (List.mem_cons_self b t)
      have ht := takeDigitsB_run t r (fun x hx => hds x (List.mem_cons_of_mem b hx)) hr
      rw [List.cons_append]
      show (if isDigitB b = true then
          (match takeDigitsB (t ++ r) with | (ds, rest) => (b :: ds, rest))
        else ([], b :: (t ++ r))) = (b :: t, r)
      rw [if_pos hb, ht]

theorem parseStrAux_cons (f : Nat) (acc : List Char) (b : Nat) (r : List Nat) :
    parseStrAux (f + 1) acc (b :: r) =
      (if b = 34 then some (acc.reverse, r)
      else if b = 92 then
        match r with
        | [] => none
        | e :: r2 =>
            if e = 34 then parseStrAux f (Char.ofNat 34 :: acc) r2
            else if e = 92 then parseStrAux f (Char.ofNat 92 :: acc) r2
            else if e = 98 then parseStrAux f (Char.ofNat 8 :: acc) r2
            else if e = 116 then parseStrAux f (Char.ofNat 9 :: acc) r2
            else if e = 110 then parseStrAux f (Char.ofNat 10 :: acc) r2
            else if e = 102 then parseStrAux f (Char.ofNat 12 :: acc) r2
            else if e = 114 then parseStrAux f (Char.ofNat 13 :: acc) r2
            else if e = 117 then
              match r2 with
              | h1 :: h2 :: h3 :: h4 :: r3 =>
                  match hexValB h1, hexValB h2, hexValB h3, hexValB h4 with
                  | some a, some b2, some c, some d =>
                      parseStrAux f (Char.ofNat (((a * 16 + b2) * 16 + c) * 16 + d) :: acc) r3
                  | _, _, _, _ => none
              | _ => none
            else none
      else if b < 128 then parseStrAux f (Char.ofNat b :: acc) r
      else if b < 224 then
        match r with
        | b2 :: r2 => parseStrAux f (Char.ofNat ((b - 192) * 64 + (b2 - 128)) :: acc) r2
        | [] => none
      else if b < 240 then
        match r with
        | b2 :: b3 :: r2 =>
            parseStrAux f (Char.ofNat ((b - 224) * 4096 + (b2 - 128) * 64 + (b3 - 128)) :: acc) r2
        | _ => none
      else
        match r with
        | b2 :: b3 :: b4 :: r2 =>
            parseStrAux f
              (Char.ofNat ((b - 240) * 262144 + (b2 - 128) * 4096 + (b3 - 128) * 64 + (b4 - 128))
                :: acc) r2
        | _ => none) := rfl

theorem hexValB_hexDigitByte (d : Nat) (h : d < 16) : hexValB (hexDigitByte d) = some d := by
  unfold hexValB hexDigitByte
  by_cases h10 : d < 10
  · rw [if_pos h10, if_pos (by omega)]
    simp only [Option.some.injEq]
    omega
  · rw [if_neg h10, if_neg (by omega), if_pos (by omega)]
    simp only [Option.some.injEq]
    omega

theorem parseStrAux_ascii (f : Nat) (acc : List Char) (b : Nat) (r : List Nat)
    (h34 : b ≠ 34) (h92 : b ≠ 92) (hlt : b < 128) :
    parseStrAux (f + 1) acc (b :: r) = parseStrAux f (Char.ofNat b :: acc) r := by
  rw [parseStrAux_cons, if_neg h34, if_neg h92, if_pos hlt]

theorem parseStrAux_two (f : Nat) (acc : List Char) (b b2 : Nat) (r : List Nat)
    (hge : 128 ≤ b) (hlt : b < 224) :
    parseStrAux (f + 1) acc (b :: b2 :: r) =
      parseStrAux f (Char.ofNat ((b - 192) * 64 + (b2 - 128)) :: acc) r := by
  rw [parseStrAux_cons, if_neg (by omega : ¬b = 34), if_neg (by omega : ¬b = 92),
    if_neg (by omega : ¬b < 128), if_pos hlt]

theorem parseStrAux_three (f : Nat) (acc : List Char) (b b2 b3 : Nat) (r : List Nat)
    (hge : 224 ≤ b) (hlt : b < 240) :
    parseStrAux (f + 1) acc (b :: b2 :: b3 :: r) =
      parseStrAux f (Char.ofNat ((b - 224) * 4096 + (b2 - 128) * 64 + (b3 - 128)) :: acc) r := by
  rw [parseStrAux_cons, if_neg (by omega : ¬b = 34), if_neg (by omega : ¬b = 92),
    if_neg (by omega : ¬b < 128), if_neg (by omega : ¬b < 224), if_pos hlt]

theorem parseStrAux_four (f : Nat) (acc : List Char) (b b2 b3 b4 : Nat) (r : List Nat)
    (hge : 240 ≤ b) :
    parseStrAux (f + 1) acc (b :: b2 :: b3 :: b4 :: r) =
      parseStrAux f
        (Char.ofNat ((b - 240) * 262144 + (b2 - 128) * 4096 + (b3 - 128) * 64 + (b4 - 128))
          :: acc) r := by
  rw [parseStrAux_cons, if_neg (by omega : ¬b = 34), if_neg (by omega : ¬b = 92),
    if_neg (by omega : ¬b < 128), if_neg (by omega : ¬b < 224), if_neg (by omega : ¬b < 240)]

/-- Decoding one escaped character undoes `escByte` and consumes one fuel unit. -/
theorem esc_inverse (c : Char) (f : Nat) (acc : List Char) (r : List Nat) :
    parseStrAux (f + 1) acc (escByte c ++ r) = parseStrAux f (c :: acc) r := by
  have hc : ∀ m : Nat, c.toNat = m → Char.ofNat m = c := by
    intro m hm
    rw [← hm]
    exact Char.ofNat_toNat c
  unfold escByte
  by_cases h34 : c.toNat = 34
  · rw [if_pos h34]
    show parseStrAux f (Char.ofNat 34 :: acc) r = parseStrAux f (c :: acc) r
    rw [hc 34 h34]
  · rw [if_neg h34]
    by_cases h92 : c.toNat = 92
    · rw [if_pos h92]
      show parseStrAux f (Char.ofNat 92 :: acc) r = parseStrAux f (c :: acc) r
      rw [hc 92 h92]
    · rw [if_neg h92]
      by_cases h8 : c.toNat = 8
      · rw [if_pos h8]
        show parseStrAux f (Char.ofNat 8 :: acc) r = parseStrAux f (c :: acc) r
        rw [hc 8 h8]
      · rw [if_neg h8]
        by_cases h9 : c.toNat = 9
        · rw [if_pos h9]
          show parseStrAux f (Char.ofNat 9 :: acc) r = parseStrAux f (c :: acc) r
          rw [hc 9 h9]
        · rw [if_neg h9]
          by_cases h10 : c.toNat = 10
          · rw [if_pos h10]
            show parseStrAux f (Char.ofNat 10 :: acc) r = parseStrAux f (c :: acc) r
            rw [hc 10 h10]
          · rw [if_neg h10]
            by_cases h12 : c.toNat = 12
            · rw [if_pos h12]
              show parseStrAux f (Char.ofNat 12 :: acc) r = parseStrAux f (c :: acc) r
              rw [hc 12 h12]
            · rw [if_neg h12]
              by_cases h13 : c.toNat = 13
              · rw [if_pos h13]
                show parseStrAux f (Char.ofNat 13 :: acc) r = parseStrAux f (c :: acc) r
                rw [hc 13 h13]
              · rw [if_neg h13]
                by_cases h32 : c.toNat < 32
                · rw [if_pos h32]
                  show (match hexValB 48, hexValB 48, hexValB (hexDigitByte (c.toNat / 16)),
                      hexValB (hexDigitByte (c.toNat % 16)) with
                    | some a, some b2, some c2, some d =>
                        parseStrAux f (Char.ofNat (((a * 16 + b2) * 16 + c2) * 16 + d) :: acc) r
                    | _, _, _, _ => none) = parseStrAux f (c :: acc) r
                  rw [hexValB_hexDigitByte (c.toNat / 16) (by omega),
                    hexValB_hexDigitByte (c.toNat % 16) (by omega)]
                  show parseStrAux f
                      (Char.ofNat (((0 * 16 + 0) * 16 + c.toNat / 16) * 16 + c.toNat % 16)
                        :: acc) r = parseStrAux f (c :: acc) r
                  rw [hc (((0 * 16 + 0) * 16 + c.toNat / 16) * 16 + c.toNat % 16) (by omega)]
                · rw [if_neg h32]
                  unfold utf8Char
                  by_cases hb1 : c.toNat < 128
                  · rw [if_pos hb1]
                    show parseStrAux (f + 1) acc (c.toNat :: r) = parseStrAux f (c :: acc) r
                    rw [parseStrAux_ascii f acc c.toNat r h34 h92 hb1, hc c.toNat rfl]
                  · rw [if_neg hb1]
                    by_cases hb2 : c.toNat < 2048
                    · rw [if_pos hb2]
                      show parseStrAux (f + 1) acc
                          ((192 + c.toNat / 64) :: (128 + c.toNat % 64) :: r) = _
                      rw [parseStrAux_two f acc (192 + c.toNat / 64) (128 + c.toNat % 64) r
                        (by omega) (by omega)]
                      rw [hc ((192 + c.toNat / 64 - 192) * 64 + (128 + c.toNat % 64 - 128))
                        (by omega)]
                    · rw [if_neg hb2]
                      by_cases hb3 : c.toNat < 65536
                      · rw [if_pos hb3]
                        show parseStrAux (f + 1) acc ((224 + c.toNat / 4096) ::
                            (128 + c.toNat / 64 % 64) :: (128 + c.toNat % 64) :: r) = _
                        rw [parseStrAux_three f acc (224 + c.toNat / 4096)
                          (128 + c.toNat / 64 % 64) (128 + c.toNat % 64) r (by omega) (by omega)]
                        rw [hc ((224 + c.toNat / 4096 - 224) * 4096 +
                          (128 + c.toNat / 64 % 64 - 128) * 64 + (128 + c.toNat % 64 - 128))
                          (by omega)]
                      · rw [if_neg hb3]
                        show parseStrAux (f + 1) acc ((240 + c.toNat / 262144) ::
                            (128 + c.toNat / 4096 % 64) :: (128 + c.toNat / 64 % 64) ::
                            (128 + c.toNat % 64) :: r) = _
                        rw [parseStrAux_four f acc (240 + c.toNat / 262144)
                          (128 + c.toNat / 4096 % 64) (128 + c.toNat / 64 % 64)
                          (128 + c.toNat % 64) r (by omega)]
                        rw [hc ((240 + c.toNat / 262144 - 240) * 262144 +
                          (128 + c.toNat / 4096 % 64 - 128) * 4096 +
                          (128 + c.toNat / 64 % 64 - 128) * 64 + (128 + c.toNat % 64 - 128))
                          (by omega)]

/-- Decoding a rendered string body stops exactly at the closing quote. -/
theorem parseStrAux_flat : ∀ (cs : List Char) (f : Nat) (acc : List Char) (r : List Nat),
    cs.length < f →
    parseStrAux f acc ((cs.map escByte).flatten ++ 34 :: r) = some (acc.reverse ++ cs, r)
  | [], f, acc, r, hf => by
      rcases f with _ | g
      · omega
      · show parseStrAux (g + 1) acc (34 :: r) = _
        rw [parseStrAux_cons, if_pos rfl]
        simp
  | c :: cs, f, acc, r, hf => by
      rcases f with _ | g
      · omega
      · rw [List.map_cons, List.flatten_cons, List.append_assoc, esc_inverse,
          parseStrAux_flat cs g (c :: acc) r (by simpa using hf)]
        simp

mutual
theorem canon_noUnsupV : ∀ v : PyVal, canonV v = true → hasUnsupportedV v = false
  | .null, _ => rfl
  | .bool _, _ => rfl
  | .int _, _ => rfl
  | .float _, _ => rfl
  | .str _, _ => rfl
  | .nanVal, h => by simp [canonV] at h
  | .infVal, h => by simp [canonV] at h
  | .negInfVal, h => by simp [canonV] at h
  | .unsupported _, h => by simp [canonV] at h
  | .list xs, h => by
      simpa [hasUnsupportedV] using canon_noUnsupL xs (by simpa [canonV] using h)
  | .dict kvs, h => by
      simpa [hasUnsupportedV] using canon_noUnsupF kvs (by simpa [canonV] using h)
theorem canon_noUnsupL : ∀ xs : PyList, canonL xs = true → hasUnsupportedL xs = false
  | .nil, _ => rfl
  | .cons v t, h => by
      simp only [canonL, Bool.and_eq_true] at h
      simp [hasUnsupportedL, canon_noUnsupV v h.1, canon_noUnsupL t h.2]
theorem canon_noUnsupF : ∀ kvs : PyFields, canonF kvs = true → hasUnsupportedF kvs = false
  | .nil, _ => rfl
  | .cons k v t, h => by
      simp only [canonF, Bool.and_eq_true] at h
      simp [hasUnsupportedF, canon_noUnsupV v h.1.1, canon_noUnsupF t h.1.2]
end

/-- A canonical value always encodes. -/
theorem canon_encV_ok (v : PyVal) (h : canonV v = true) : ∃ b, encodeV v = .ok b :=
  noUnsupported_encV v (canon_noUnsupV v h)

theorem canon_list_head (v : PyVal) (t : PyList) (h : canonL (.cons v t) = true) :
    canonV v = true ∧ canonL t = true := by
  simpa [canonL] using h

theorem canon_fields_head (k : String) (v : PyVal) (t : PyFields)
    (h : canonF (.cons k v t) = true) :
    canonV v = true ∧ canonF t = true := by
  simp only [canonF, Bool.and_eq_true] at h
  exact h.1

theorem bytesLt_le : ∀ a b : List Nat, bytesLt a b = true → bytesLe a b = true
  | [], [], _ => rfl
  | [], _ :: _, _ => rfl
  | _ :: _, [], h => by simp [bytesLt] at h
  | x :: xs, y :: ys, h => by
      unfold bytesLt at h
      unfold bytesLe
      by_cases hxy : x < y
      · rw [if_pos hxy]
      · rw [if_neg hxy] at h ⊢
        by_cases he : x = y
        · rw [if_pos he] at h ⊢
          exact bytesLt_le xs ys h
        · rw [if_neg he] at h
          simp at h

theorem keyLt_le (a b : String) (h : keyLt a b = true) : keyLe a b = true :=
  bytesLt_le (utf8 a) (utf8 b) h

theorem encF_keys : ∀ (kvs : PyFields) (ps : List (String × List Nat)),
    encodeF kvs = .ok ps → ps.map (fun p => p.1) = keysF kvs
  | .nil, ps, h => by
      simp only [encodeF, Except.ok.injEq] at h
      rw [← h]
      rfl
  | .cons k v t, ps, h => by
      unfold encodeF at h
      rcases hv : encodeV v with er | b
      · rw [hv] at h
        simp at h
      · rw [hv] at h
        rcases ht : encodeF t with er | rest
        · rw [ht] at h
          simp at h
        · rw [ht] at h
          simp only [Except.ok.injEq] at h
          rw [← h]
          simp only [List.map_cons, keysF]
          rw [encF_keys t rest ht]

theorem canonF_keysSorted : ∀ kvs : PyFields, canonF kvs = true →
    keysSortedLt (keysF kvs) = true
  | .nil, _ => rfl
  | .cons k v t, h => by
      simp only [canonF, Bool.and_eq_true] at h
      rcases t with _ | ⟨k2, v2, t2⟩
      · rfl
      · have ht : canonF (.cons k2 v2 t2) = true := h.1.2
        have hlt : keyLt k k2 = true := h.2
        have ih := canonF_keysSorted (.cons k2 v2 t2) ht
        show keysSortedLt (k :: k2 :: keysF t2) = true
        unfold keysSortedLt
        rw [hlt]
        simpa [keysF] using ih

theorem fields_sorted_of_keys : ∀ ps : List (String × List Nat),
    keysSortedLt (ps.map (fun p => p.1)) = true → fieldsSortedLe ps = true
  | [], _ => rfl
  | [_], _ => rfl
  | p :: q :: rest, h => by
      simp only [List.map_cons] at h
      unfold keysSortedLt at h
      simp only [Bool.and_eq_true] at h
      unfold fieldsSortedLe
      rw [keyLt_le p.1 q.1 h.1]
      simpa using fields_sorted_of_keys (q :: rest) (by simpa [List.map_cons] using h.2)

theorem insertField_sorted (p : (String × List Nat)) : ∀ ps : List (String × List Nat),
    (∀ q t, ps = q :: t → keyLe p.1 q.1 = true) → insertField p ps = p :: ps
  | [], _ => rfl
  | q :: t, h => by
      unfold insertField
      rw [if_pos (h q t rfl)]

theorem sortFields_id : ∀ ps : List (String × List Nat),
    fieldsSortedLe ps = true → sortFields ps = ps
  | [], _ => rfl
  | p :: ps, h => by
      have htail : fieldsSortedLe ps = true := by
        rcases ps with _ | ⟨q, t⟩
        · rfl
        · unfold fieldsSortedLe at h
          simp only [Bool.and_eq_true] at h
          exact h.2
      show insertField p (sortFields ps) = p :: ps
      rw [sortFields_id ps htail]
      apply insertField_sorted
      intro q t hqt
      subst hqt
      unfold fieldsSortedLe at h
      simp only [Bool.and_eq_true] at h
      exact h.1

theorem allDigitsB_mem (l : List Nat) (h : allDigitsB l = true) :
    ∀ b ∈ l, isDigitB b = true := by
  simpa [allDigitsB, List.all_eq_true] using h

/-- Decomposition of a well-formed float representation: what the decoding
lemmas need. -/
theorem floatOk_parts (neg : Bool) (ip frac : List Nat) (eneg : Bool) (ex : List Nat)
    (h : floatOk ⟨neg, ip, frac, eneg, ex⟩ = true) :
    ip ≠ [] ∧ allDigitsB ip = true ∧ allDigitsB frac = true ∧
    allDigitsB ex = true ∧ (frac = [] → ex ≠ []) ∧ (ex = [] → eneg = false) := by
  unfold floatOk at h
  simp only [Bool.and_eq_true] at h
  obtain ⟨⟨⟨hip, hfrac⟩, hpresent⟩, hexp⟩ := h
  refine ⟨?_, ?_, hfrac, ?_, ?_, ?_⟩
  · intro hnil
    rw [hnil] at hip
    simp [ipOkB] at hip
  · rcases hipc : ip with _ | ⟨d, ds⟩
    · subst hipc
      simp [ipOkB] at hip
    · subst hipc
      unfold ipOkB at hip
      simp only [Bool.and_eq_true] at hip
      simp only [allDigitsB, List.all_cons, Bool.and_eq_true]
      exact ⟨hip.1.1, hip.1.2⟩
  · rcases hexc : ex with _ | ⟨ed, eds⟩
    · rfl
    · subst hexc
      simp only [Bool.or_eq_true, Bool.and_eq_true] at hexp
      rcases hexp with ⟨hcontra, _⟩ | hok2
      · simp at hcontra
      · unfold expOkB at hok2
        simp only [Bool.and_eq_true] at hok2
        simp only [allDigitsB, List.all_cons, Bool.and_eq_true]
        exact ⟨hok2.1.1, hok2.1.2⟩
  · intro hfe
    rw [hfe] at hpresent
    simp at hpresent
    exact hpresent
  · intro hee
    rw [hee] at hexp
    simp [expOkB] at hexp
    exact hexp

/-- The first byte of any canonical encoding is a value opener, never `]`. -/
theorem encHead_ne93 : ∀ (v : PyVal) (bv : List Nat), canonV v = true → encodeV v = .ok bv →
    ∃ b t, bv = b :: t ∧ ¬b = 93
  | .null, bv, _, h => by
      simp only [encodeV, Except.ok.injEq] at h
      exact ⟨110, _, h.symm, by omega⟩
  | .bool true, bv, _, h => by
      simp only [encodeV, Except.ok.injEq] at h
      exact ⟨116, _, h.symm, by omega⟩
  | .bool false, bv, _, h => by
      simp only [encodeV, Except.ok.injEq] at h
      exact ⟨102, _, h.symm, by omega⟩
  | .int n, bv, _, h => by
      simp only [encodeV, Except.ok.injEq] at h
      unfold intDec at h
      by_cases hn : n < 0
      · rw [if_pos hn] at h
        exact ⟨45, _, h.symm, by omega⟩
      · rw [if_neg hn] at h
        simp only [List.nil_append] at h
        rcases hnd : natDec n.natAbs with _ | ⟨d, ds⟩
        · exact absurd hnd (natDec_ne_nil n.natAbs)
        · have hd : isDigitB d = true := by
            apply natDec_digits n.natAbs
            rw [hnd]
            exact List.mem_cons_self d ds
          simp only [isDigitB, Bool.and_eq_true, decide_eq_true_eq] at hd
          rw [hnd] at h
          exact ⟨d, ds, h.symm, by omega⟩
  | .float fr, bv, hc, h => by
      obtain ⟨neg, ip, frac, eneg, ex⟩ := fr
      simp only [encodeV, Except.ok.injEq] at h
      have hok : floatOk ⟨neg, ip, frac, eneg, ex⟩ = true := by simpa [canonV] using hc
      obtain ⟨hipne, hipd, _, _, _, _⟩ := floatOk_parts neg ip frac eneg ex hok
      rcases ip with _ | ⟨d, ds⟩
      · exact absurd rfl hipne
      · have hd : isDigitB d = true :=
          allDigitsB_mem (d :: ds) hipd d (List.mem_cons_self d ds)
        have hd2 : 48 ≤ d ∧ d ≤ 57 := by simpa [isDigitB] using hd
        by_cases hn : neg
        · refine ⟨45, (d :: ds) ++
            (if frac = [] then [] else 46 :: frac) ++
            (if ex = [] then [] else
              101 :: ((if eneg then [45] else []) ++ ex)), ?_, by omega⟩
          rw [← h]
          unfold renderFloat
          rw [if_pos hn]
          simp
        · refine ⟨d, ds ++
            (if frac = [] then [] else 46 :: frac) ++
            (if ex = [] then [] else
              101 :: ((if eneg then [45] else []) ++ ex)), ?_, by omega⟩
          rw [← h]
          unfold renderFloat
          rw [if_neg hn]
          simp
  | .str s, bv, _, h => by
      simp only [encodeV, Except.ok.injEq] at h
      unfold strBytes at h
      exact ⟨34, _, h.symm, by omega⟩
  | .list xs, bv, _, h => by
      unfold encodeV at h
      rcases hxs : encodeL xs with er | bs
      · rw [hxs] at h
        simp at h
      · rw [hxs] at h
        simp only [Except.ok.injEq] at h
        exact ⟨91, _, h.symm, by omega⟩
  | .dict kvs, bv, _, h => by
      unfold encodeV at h
      rcases hkvs : encodeF kvs with er | ps
      · rw [hkvs] at h
        simp at h
      · rw [hkvs] at h
        simp only [Except.ok.injEq] at h
        exact ⟨123, _, h.symm, by omega⟩
  | .nanVal, bv, hc, _ => by simp [canonV] at hc
  | .infVal, bv, hc, _ => by simp [canonV] at hc
  | .negInfVal, bv, hc, _ => by simp [canonV] at hc
  | .unsupported _, bv, hc, _ => by simp [canonV] at hc

theorem utf8Char_ne_nil (c : Char) : 1 ≤ (utf8Char c).length := by
  simp only [utf8Char]
  repeat' split
  all_goals simp

theorem escByte_ne_nil (c : Char) : 1 ≤ (escByte c).length := by
  simp only [escByte]
  repeat' split
  all_goals first | exact utf8Char_ne_nil c | simp

theorem length_le_flat : ∀ cs : List Char, cs.length ≤ ((cs.map escByte).flatten).length
  | [] => Nat.le_refl 0
  | c :: cs => by
      rw [List.map_cons, List.flatten_cons, List.length_cons, List.length_append]
      have h1 := escByte_ne_nil c
      have h2 := length_le_flat cs
      omega

theorem takeDigitsB_stop_head (b : Nat) (r : List Nat) (hb : isDigitB b = false) :
    takeDigitsB (b :: r) = ([], b :: r) := by
  simp [takeDigitsB, hb]

/-- A number token followed by a delimiter and no `.`/`e` part decodes as an
integer literal. -/
theorem parseNumTail_delim (neg : Bool) (ds r : List Nat) (hr : delimB r = true) :
    parseNumTail neg ds r =
      some (if neg then PyVal.int (-(digitsVal ds : Int)) else .int (digitsVal ds), r) := by
  rcases r with _ | ⟨b, r2⟩
  · rfl
  · have hb : (b = 44 ∨ b = 93) ∨ b = 125 := by
      simpa [delimB] using hr
    have h46 : ¬b = 46 := by rcases hb with (h | h) | h <;> omega
    have h101 : ¬b = 101 := by rcases hb with (h | h) | h <;> omega
    simp only [parseNumTail]
    rw [if_neg h46, if_neg h101]

/-- Decoding the exponent part of a float token. -/
theorem parseExp_run (neg : Bool) (ip fs : List Nat) (eneg : Bool) (ed : Nat)
    (eds r : List Nat) (hed : isDigitB ed = true) (heds : allDigitsB eds = true)
    (hr : delimB r = true) :
    parseExp neg ip fs ((if eneg then [45] else []) ++ ed :: (eds ++ r)) =
      some (.float ⟨neg, ip, fs, eneg, ed :: eds⟩, r) := by
  have htd : takeDigitsB ((ed :: eds) ++ r) = (ed :: eds, r) :=
    takeDigitsB_run (ed :: eds) r
      (by
        intro b hbm
        rcases List.mem_cons.mp hbm with rfl | hbm2
        · exact hed
        · exact allDigitsB_mem eds heds b hbm2)
      (takeDigitsB_stop r hr)
  rw [List.cons_append] at htd
  have hed2 : 48 ≤ ed ∧ ed ≤ 57 := by simpa [isDigitB] using hed
  have h45 : ¬ed = 45 := by omega
  cases eneg
  · show parseExp neg ip fs (ed :: (eds ++ r)) = _
    simp only [parseExp]
    rw [if_neg h45, htd]
  · show parseExp neg ip fs (45 :: (ed :: (eds ++ r))) = _
    simp only [parseExp]
    rw [if_pos trivial, htd]

/-- Decoding a float token with a fraction part and no exponent. -/
theorem parseNumTail_frac (neg : Bool) (ip : List Nat) (fd : Nat) (fds r : List Nat)
    (hfd : isDigitB fd = true) (hfds : allDigitsB fds = true) (hr : delimB r = true) :
    parseNumTail neg ip (46 :: (fd :: (fds ++ r))) =
      some (.float ⟨neg, ip, fd :: fds, false, []⟩, r) := by
  have htd : takeDigitsB (fd :: (fds ++ r)) = (fd :: fds, r) := by
    have := takeDigitsB_run (fd :: fds) r
      (by
        intro b hbm
        rcases List.mem_cons.mp hbm with rfl | hbm2
        · exact hfd
        · exact allDigitsB_mem fds hfds b hbm2)
      (takeDigitsB_stop r hr)
    rw [List.cons_append] at this
    exact this
  simp only [parseNumTail]
  rw [if_pos trivial, htd]
  show (match r with
    | [] => some (PyVal.float ⟨neg, ip, fd :: fds, false, []⟩, ([] : List Nat))
    | b2 :: r4 =>
        if b2 = 101 then parseExp neg ip (fd :: fds) r4
        else some (PyVal.float ⟨neg, ip, fd :: fds, false, []⟩, b2 :: r4)) = _
  rcases r with _ | ⟨b2, r4⟩
  · rfl
  · have hb : (b2 = 44 ∨ b2 = 93) ∨ b2 = 125 := by
      simpa [delimB] using hr
    have hb101 : ¬b2 = 101 := by rcases hb with (h | h) | h <;> omega
    show (if b2 = 101 then parseExp neg ip (fd :: fds) r4
      else some (PyVal.float ⟨neg, ip, fd :: fds, false, []⟩, b2 :: r4)) = _
    rw [if_neg hb101]

/-- Decoding a float token with a fraction part and an exponent. -/
theorem parseNumTail_frac_exp (neg : Bool) (ip : List Nat) (fd : Nat) (fds : List Nat)
    (eneg : Bool) (ed : Nat) (eds r : List Nat)
    (hfd : isDigitB fd = true) (hfds : allDigitsB fds = true)
    (hed : isDigitB ed = true) (heds : allDigitsB eds = true) (hr : delimB r = true) :
    parseNumTail neg ip
        (46 :: (fd :: (fds ++ 101 :: ((if eneg then [45] else []) ++ ed :: (eds ++ r))))) =
      some (.float ⟨neg, ip, fd :: fds, eneg, ed :: eds⟩, r) := by
  have htd : takeDigitsB (fd :: (fds ++ 101 :: ((if eneg then [45] else []) ++
      ed :: (eds ++ r)))) =
      (fd :: fds, 101 :: ((if eneg then [45] else []) ++ ed :: (eds ++ r))) := by
    have := takeDigitsB_run (fd :: fds) (101 :: ((if eneg then [45] else []) ++
        ed :: (eds ++ r)))
      (by
        intro b hbm
        rcases List.mem_cons.mp hbm with rfl | hbm2
        · exact hfd
        · exact allDigitsB_mem fds hfds b hbm2)
      (takeDigitsB_stop_head 101 _ (by decide))
    rw [List.cons_append] at this
    exact this
  simp only [parseNumTail]
  rw [if_pos trivial, htd]
  show (if (101 : Nat) = 101 then parseExp neg ip (fd :: fds)
      ((if eneg then [45] else []) ++ ed :: (eds ++ r))
    else some (PyVal.float ⟨neg, ip, fd :: fds, false, []⟩,
      101 :: ((if eneg then [45] else []) ++ ed :: (eds ++ r)))) = _
  rw [if_pos rfl, parseExp_run neg ip (fd :: fds) eneg ed eds r hed heds hr]

/-- Decoding a float token with an exponent and no fraction part. -/
theorem parseNumTail_exp (neg : Bool) (ip : List Nat) (eneg : Bool) (ed : Nat)
    (eds r : List Nat) (hed : isDigitB ed = true) (heds : allDigitsB eds = true)
    (hr : delimB r = true) :
    parseNumTail neg ip (101 :: ((if eneg then [45] else []) ++ ed :: (eds ++ r))) =
      some (.float ⟨neg, ip, [], eneg, ed :: eds⟩, r) := by
  simp only [parseNumTail]
  rw [if_neg (by decide : ¬(101 : Nat) = 46), if_pos trivial,
    parseExp_run neg ip [] eneg ed eds r hed heds hr]

theorem parseV_int (f : Nat) (n : Int) (r : List Nat) (hf : (intDec n).length + 1 ≤ f)
    (hr : delimB r = true) : parseV f (intDec n ++ r) = some (.int n, r) := by
  have htd : takeDigitsB (natDec n.natAbs ++ r) = (natDec n.natAbs, r) :=
    takeDigitsB_run (natDec n.natAbs) r (natDec_digits n.natAbs) (takeDigitsB_stop r hr)
  rcases f with _ | f
  · omega
  · rcases hnd : natDec n.natAbs with _ | ⟨d, ds⟩
    · exact absurd hnd (natDec_ne_nil n.natAbs)
    · rw [hnd] at htd
      by_cases hn : n < 0
      · have hbd : intDec n = 45 :: natDec n.natAbs := by
          unfold intDec
          rw [if_pos hn]
          rfl
        rw [hbd, hnd, List.cons_append]
        simp only [parseV]
        rw [if_neg (by decide : ¬(45 : Nat) = 110), if_neg (by decide : ¬(45 : Nat) = 116),
          if_neg (by decide : ¬(45 : Nat) = 102), if_neg (by decide : ¬(45 : Nat) = 34),
          if_neg (by decide : ¬(45 : Nat) = 91), if_neg (by decide : ¬(45 : Nat) = 123),
          if_pos trivial, htd]
        show parseNumTail true (d :: ds) r = some (.int n, r)
        rw [parseNumTail_delim true (d :: ds) r hr]
        show some (PyVal.int (-(digitsVal (d :: ds) : Int)), r) = some (.int n, r)
        rw [← hnd, digitsVal_natDec]
        have : -((n.natAbs : Nat) : Int) = n := by omega
        rw [this]
      · have hbd : intDec n = natDec n.natAbs := by
          unfold intDec
          rw [if_neg hn]
          rfl
        have hd : isDigitB d = true := by
          apply natDec_digits n.natAbs
          rw [hnd]
          exact List.mem_cons_self d ds
        have hd2 : 48 ≤ d ∧ d ≤ 57 := by
          simpa [isDigitB] using hd
        rw [hbd, hnd, List.cons_append]
        simp only [parseV]
        rw [if_neg (by omega : ¬d = 110), if_neg (by omega : ¬d = 116),
          if_neg (by omega : ¬d = 102), if_neg (by omega : ¬d = 34),
          if_neg (by omega : ¬d = 91), if_neg (by omega : ¬d = 123),
          if_neg (by omega : ¬d = 45), if_pos hd, ← List.cons_append, htd]
        show parseNumTail false (d :: ds) r = some (.int n, r)
        rw [parseNumTail_delim false (d :: ds) r hr]
        show some (PyVal.int ((digitsVal (d :: ds) : Int)), r) = some (.int n, r)
        rw [← hnd, digitsVal_natDec]
        have : ((n.natAbs : Nat) : Int) = n := by omega
        rw [this]

theorem parseV_str (f : Nat) (s : String) (r : List Nat) (hf : (strBytes s).length + 1 ≤ f) :
    parseV f (strBytes s ++ r) = some (.str s, r) := by
  rcases f with _ | f
  · omega
  · have hsplit : strBytes s ++ r = 34 :: ((s.data.map escByte).flatten ++ 34 :: r) := by
      unfold strBytes
      simp
    rw [hsplit]
    simp only [parseV]
    rw [if_neg (by decide : ¬(34 : Nat) = 110), if_neg (by decide : ¬(34 : Nat) = 116),
      if_neg (by decide : ¬(34 : Nat) = 102), if_pos trivial]
    have hlen : ((s.data.map escByte).flatten ++ 34 :: r).length =
        ((s.data.map escByte).flatten).length + (34 :: r).length := List.length_append _ _
    have hbound : s.data.length < ((s.data.map escByte).flatten ++ 34 :: r).length + 1 := by
      have := length_le_flat s.data
      simp only [List.length_cons] at hlen
      omega
    rw [parseStrAux_flat s.data (((s.data.map escByte).flatten ++ 34 :: r).length + 1) [] r
      hbound]
    show some (PyVal.str (String.mk ([].reverse ++ s.data)), r) = some (.str s, r)
    rw [List.reverse_nil, List.nil_append]

/-- A `-`-signed number token dispatches to `parseNumTail` after the digit run. -/
theorem parseV_neg_num (f d : Nat) (ds tail : List Nat) (hd : isDigitB d = true)
    (hds : allDigitsB ds = true) (hstop : takeDigitsB tail = ([], tail)) :
    parseV (f + 1) (45 :: (d :: (ds ++ tail))) = parseNumTail true (d :: ds) tail := by
  have htd : takeDigitsB (d :: (ds ++ tail)) = (d :: ds, tail) := by
    have := takeDigitsB_run (d :: ds) tail
      (by
        intro b hbm
        rcases List.mem_cons.mp hbm with rfl | hbm2
        · exact hd
        · exact allDigitsB_mem ds hds b hbm2)
      hstop
    rw [List.cons_append] at this
    exact this
  simp only [parseV]
  rw [if_neg (by decide : ¬(45 : Nat) = 110), if_neg (by decide : ¬(45 : Nat) = 116),
    if_neg (by decide : ¬(45 : Nat) = 102), if_neg (by decide : ¬(45 : Nat) = 34),
    if_neg (by decide : ¬(45 : Nat) = 91), if_neg (by decide : ¬(45 : Nat) = 123),
    if_pos trivial, htd]

/-- An unsigned number token dispatches to `parseNumTail` after the digit run. -/
theorem parseV_pos_num (f d : Nat) (ds tail : List Nat) (hd : isDigitB d = true)
    (hds : allDigitsB ds = true) (hstop : takeDigitsB tail = ([], tail)) :
    parseV (f + 1) (d :: (ds ++ tail)) = parseNumTail false (d :: ds) tail := by
  have htd : takeDigitsB ((d :: ds) ++ tail) = (d :: ds, tail) :=
    takeDigitsB_run (d :: ds) tail
      (by
        intro b hbm
        rcases List.mem_cons.mp hbm with rfl | hbm2
        · exact hd
        · exact allDigitsB_mem ds hds b hbm2)
      hstop
  have hd2 : 48 ≤ d ∧ d ≤ 57 := by simpa [isDigitB] using hd
  simp only [parseV]
  rw [if_neg (by omega : ¬d = 110), if_neg (by omega : ¬d = 116),
    if_neg (by omega : ¬d = 102), if_neg (by omega : ¬d = 34),
    if_neg (by omega : ¬d = 91), if_neg (by omega : ¬d = 123),
    if_neg (by omega : ¬d = 45), if_pos hd, ← List.cons_append, htd]

/-- Decoding inverts the float formatter on well-formed representations. -/
theorem parseV_float (f : Nat) (fr : FloatRep) (r : List Nat) (hok : floatOk fr = true)
    (hf : (renderFloat fr).length + 1 ≤ f) (hr : delimB r = true) :
    parseV f (renderFloat fr ++ r) = some (.float fr, r) := by
  obtain ⟨neg, ip, frac, eneg, ex⟩ := fr
  obtain ⟨hipne, hipd, hfracd, hexd, hpres, henf⟩ := floatOk_parts neg ip frac eneg ex hok
  rcases f with _ | f
  · omega
  · rcases ip with _ | ⟨d, ds⟩
    · exact absurd rfl hipne
    · have hd : isDigitB d = true := allDigitsB_mem (d :: ds) hipd d (List.mem_cons_self d ds)
      have hds : allDigitsB ds = true := by
        simp only [allDigitsB, List.all_cons, Bool.and_eq_true] at hipd
        exact hipd.2
      rcases frac with _ | ⟨fd, fds⟩
      · rcases ex with _ | ⟨ed, eds⟩
        · exact absurd rfl (hpres rfl)
        · have hed : isDigitB ed = true :=
            allDigitsB_mem (ed :: eds) hexd ed (List.mem_cons_self ed eds)
          have heds : allDigitsB eds = true := by
            simp only [allDigitsB, List.all_cons, Bool.and_eq_true] at hexd
            exact hexd.2
          rcases neg with _ | _
          · have heq : renderFloat ⟨false, d :: ds, [], eneg, ed :: eds⟩ ++ r =
                d :: (ds ++ 101 :: ((if eneg then [45] else []) ++ ed :: (eds ++ r))) := by
              simp [renderFloat, List.cons_append, List.append_assoc]
            rw [heq, parseV_pos_num f d ds _ hd hds (takeDigitsB_stop_head 101 _ (by decide)),
              parseNumTail_exp false (d :: ds) eneg ed eds r hed heds hr]
          · have heq : renderFloat ⟨true, d :: ds, [], eneg, ed :: eds⟩ ++ r =
                45 :: (d :: (ds ++ 101 :: ((if eneg then [45] else []) ++
                  ed :: (eds ++ r)))) := by
              simp [renderFloat, List.cons_append, List.append_assoc]
            rw [heq, parseV_neg_num f d ds _ hd hds (takeDigitsB_stop_head 101 _ (by decide)),
              parseNumTail_exp true (d :: ds) eneg ed eds r hed heds hr]
      · have hfd : isDigitB fd = true :=
          allDigitsB_mem (fd :: fds) hfracd fd (List.mem_cons_self fd fds)
        have hfds : allDigitsB fds = true := by
          simp only [allDigitsB, List.all_cons, Bool.and_eq_true] at hfracd
          exact hfracd.2
        rcases ex with _ | ⟨ed, eds⟩
        · have he : eneg = false := henf rfl
          subst he
          rcases neg with _ | _
          · have heq : renderFloat ⟨false, d :: ds, fd :: fds, false, []⟩ ++ r =
                d :: (ds ++ 46 :: (fd :: (fds ++ r))) := by
              simp [renderFloat, List.cons_append, List.append_assoc]
            rw [heq, parseV_pos_num f d ds _ hd hds (takeDigitsB_stop_head 46 _ (by decide)),
              parseNumTail_frac false (d :: ds) fd fds r hfd hfds hr]
          · have heq : renderFloat ⟨true, d :: ds, fd :: fds, false, []⟩ ++ r =
                45 :: (d :: (ds ++ 46 :: (fd :: (fds ++ r)))) := by
              simp [renderFloat, List.cons_append, List.append_assoc]
            rw [heq, parseV_neg_num f d ds _ hd hds (takeDigitsB_stop_head 46 _ (by decide)),
              parseNumTail_frac true (d :: ds) fd fds r hfd hfds hr]
        · have hed : isDigitB ed = true :=
            allDigitsB_mem (ed :: eds) hexd ed (List.mem_cons_self ed eds)
          have heds : allDigitsB eds = true := by
            simp only [allDigitsB, List.all_cons, Bool.and_eq_true] at hexd
            exact hexd.2
          rcases neg with _ | _
          · have heq : renderFloat ⟨false, d :: ds, fd :: fds, eneg, ed :: eds⟩ ++ r =
                d :: (ds ++ 46 :: (fd :: (fds ++ 101 :: ((if eneg then [45] else []) ++
                  ed :: (eds ++ r))))) := by
              simp [renderFloat, List.cons_append, List.append_assoc]
            rw [heq, parseV_pos_num f d ds _ hd hds (takeDigitsB_stop_head 46 _ (by decide)),
              parseNumTail_frac_exp false (d :: ds) fd fds eneg ed eds r hfd hfds hed heds hr]
          · have heq : renderFloat ⟨true, d :: ds, fd :: fds, eneg, ed :: eds⟩ ++ r =
                45 :: (d :: (ds ++ 46 :: (fd :: (fds ++ 101 :: ((if eneg then [45] else []) ++
                  ed :: (eds ++ r)))))) := by
              simp [renderFloat, List.cons_append, List.append_assoc]
            rw [heq, parseV_neg_num f d ds _ hd hds (takeDigitsB_stop_head 46 _ (by decide)),
              parseNumTail_frac_exp true (d :: ds) fd fds eneg ed eds r hfd hfds hed heds hr]

theorem encodeL_cons_inv (v : PyVal) (t : PyList) (bs : List (List Nat))
    (h : encodeL (.cons v t) = .ok bs) :
    ∃ bv bs2, encodeV v = .ok bv ∧ encodeL t = .ok bs2 ∧ bs = bv :: bs2 := by
  unfold encodeL at h
  rcases hv : encodeV v with e | bv <;> rw [hv] at h
  · simp at h
  · rcases ht : encodeL t with e | bs2 <;> rw [ht] at h
    · simp at h
    · simp only [Except.ok.injEq] at h
      exact ⟨bv, bs2, rfl, rfl, h.symm⟩

theorem encodeF_cons_inv (k : String) (v : PyVal) (t : PyFields)
    (ps : List (String × List Nat)) (h : encodeF (.cons k v t) = .ok ps) :
    ∃ bv ps2, encodeV v = .ok bv ∧ encodeF t = .ok ps2 ∧ ps = (k, bv) :: ps2 := by
  unfold encodeF at h
  rcases hv : encodeV v with e | bv <;> rw [hv] at h
  · simp at h
  · rcases ht : encodeF t with e | ps2 <;> rw [ht] at h
    · simp at h
    · simp only [Except.ok.injEq] at h
      exact ⟨bv, ps2, rfl, rfl, h.symm⟩

theorem sepComma_cons (x : List Nat) (xs : List (List Nat)) :
    ∃ tl, sepComma (x :: xs) = x ++ tl := by
  rcases xs with _ | ⟨y, r⟩
  · exact ⟨[], by simp [sepComma]⟩
  · exact ⟨44 :: sepComma (y :: r), rfl⟩

theorem sepComma_cons2 (x y : List Nat) (r : List (List Nat)) :
    sepComma (x :: y :: r) = x ++ 44 :: sepComma (y :: r) := rfl

theorem renderFields_one (p : String × List Nat) :
    renderFields [p] = strBytes p.1 ++ 58 :: p.2 := rfl

theorem renderFields_cons2 (p q : String × List Nat) (r : List (String × List Nat)) :
    renderFields (p :: q :: r) = (strBytes p.1 ++ 58 :: p.2) ++ 44 :: renderFields (q :: r) :=
  rfl

theorem renderFields_cons_head (p : String × List Nat) (ps : List (String × List Nat)) :
    ∃ y, renderFields (p :: ps) = 34 :: y := by
  rcases ps with _ | ⟨q, r⟩
  · rw [renderFields_one]
    exact ⟨_, rfl⟩
  · rw [renderFields_cons2]
    exact ⟨_, rfl⟩

theorem strBytes_length (s : String) :
    (strBytes s).length = ((s.data.map escByte).flatten).length + 2 := by
  simp [strBytes]

mutual
/-- Round trip: the decoder inverts the canonical encoder on values. -/
theorem rt_val : ∀ (v : PyVal) (bv : List Nat) (f : Nat) (rest : List Nat),
    canonV v = true → encodeV v = .ok bv → bv.length + 1 ≤ f → delimB rest = true →
    parseV f (bv ++ rest) = some (v, rest)
  | .null, bv, f, rest, _, he, hf, _ => by
      simp only [encodeV, Except.ok.injEq] at he
      subst he
      rcases f with _ | f
      · simp at hf
      · simp [parseV]
  | .bool true, bv, f, rest, _, he, hf, _ => by
      simp only [encodeV, Except.ok.injEq] at he
      subst he
      rcases f with _ | f
      · simp at hf
      · simp [parseV]
  | .bool false, bv, f, rest, _, he, hf, _ => by
      simp only [encodeV, Except.ok.injEq] at he
      subst he
      rcases f with _ | f
      · simp at hf
      · simp [parseV]
  | .int n, bv, f, rest, _, he, hf, hd => by
      simp only [encodeV, Except.ok.injEq] at he
      subst he
      exact parseV_int f n rest hf hd
  | .float fr, bv, f, rest, hc, he, hf, hd => by
      simp only [encodeV, Except.ok.injEq] at he
      subst he
      exact parseV_float f fr rest (by simpa [canonV] using hc) hf hd
  | .str s, bv, f, rest, _, he, hf, _ => by
      simp only [encodeV, Except.ok.injEq] at he
      subst he
      exact parseV_str f s rest hf
  | .list xs, bv, f, rest, hc, he, hf, hd => by
      unfold encodeV at he
      rcases hxs : encodeL xs with e | bs <;> rw [hxs] at he
      · simp at he
      · simp only [Except.ok.injEq] at he
        subst he
        have hcl : canonL xs = true := by simpa [canonV] using hc
        rcases xs with _ | ⟨v, t⟩
        · have hbs : bs = [] := by
            simp only [encodeL, Except.ok.injEq] at hxs
            exact hxs.symm
          subst hbs
          rcases f with _ | f
          · omega
          · simp [sepComma, parseV]
        · obtain ⟨bv1, bs2, hv1, ht2, hbs⟩ := encodeL_cons_inv v t bs hxs
          subst hbs
          have hcv : canonV v = true := (canon_list_head v t hcl).1
          obtain ⟨b1, tl1, hb1, hb93⟩ := encHead_ne93 v bv1 hcv hv1
          obtain ⟨stl, hstl⟩ := sepComma_cons bv1 bs2
          rcases f with _ | f
          · omega
          · have hfi : (sepComma (bv1 :: bs2)).length + 2 ≤ f := by
              simp only [List.length_cons, List.length_append, List.length_nil] at hf
              omega
            have hitems := rt_items (.cons v t) (bv1 :: bs2) f rest hcl hxs
              (by intro hx; exact PyList.noConfusion hx) hfi hd
            rw [hstl, hb1] at hitems
            simp only [List.cons_append, List.append_assoc] at hitems
            rw [List.cons_append, hstl, hb1]
            simp only [List.cons_append, List.append_assoc, List.singleton_append,
              List.nil_append]
            simp only [parseV]
            rw [if_neg (by decide : ¬(91 : Nat) = 110), if_neg (by decide : ¬(91 : Nat) = 116),
              if_neg (by decide : ¬(91 : Nat) = 102), if_neg (by decide : ¬(91 : Nat) = 34),
              if_pos trivial]
            rw [if_neg hb93, hitems]
  | .dict kvs, bv, f, rest, hc, he, hf, hd => by
      unfold encodeV at he
      rcases hkv : encodeF kvs with e | ps <;> rw [hkv] at he
      · simp at he
      · simp only [Except.ok.injEq] at he
        subst he
        have hcf : canonF kvs = true := by simpa [canonV] using hc
        have hsorted : sortFields ps = ps :=
          sortFields_id ps (fields_sorted_of_keys ps
            (by rw [encF_keys kvs ps hkv]; exact canonF_keysSorted kvs hcf))
        rw [hsorted] at hf ⊢
        rcases kvs with _ | ⟨k, v, t⟩
        · have hps : ps = [] := by
            simp only [encodeF, Except.ok.injEq] at hkv
            exact hkv.symm
          subst hps
          rcases f with _ | f
          · omega
          · simp [renderFields, sepComma, parseV]
        · obtain ⟨bv1, ps2, hv1, ht2, hps⟩ := encodeF_cons_inv k v t ps hkv
          subst hps
          obtain ⟨y, hy⟩ := renderFields_cons_head (k, bv1) ps2
          rcases f with _ | f
          · omega
          · have hfi : (renderFields ((k, bv1) :: ps2)).length + 2 ≤ f := by
              simp only [List.length_cons, List.length_append, List.length_nil] at hf
              omega
            have hflds := rt_fields (.cons k v t) ((k, bv1) :: ps2) f rest hcf hkv
              (by intro hx; exact PyFields.noConfusion hx) hfi hd
            rw [hy] at hflds
            simp only [List.cons_append, List.append_assoc] at hflds
            rw [List.cons_append, hy]
            simp only [List.cons_append, List.append_assoc, List.singleton_append,
              List.nil_append]
            simp only [parseV]
            rw [if_neg (by decide : ¬(123 : Nat) = 110), if_neg (by decide : ¬(123 : Nat) = 116),
              if_neg (by decide : ¬(123 : Nat) = 102), if_neg (by decide : ¬(123 : Nat) = 34),
              if_neg (by decide : ¬(123 : Nat) = 91), if_pos trivial]
            rw [if_neg (by decide : ¬(34 : Nat) = 125), hflds]
  | .nanVal, bv, f, rest, hc, _, _, _ => by simp [canonV] at hc
  | .infVal, bv, f, rest, hc, _, _, _ => by simp [canonV] at hc
  | .negInfVal, bv, f, rest, hc, _, _, _ => by simp [canonV] at hc
  | .unsupported _, bv, f, rest, hc, _, _, _ => by simp [canonV] at hc
/-- Round trip for the members of a nonempty array. -/
theorem rt_items : ∀ (xs : PyList) (bs : List (List Nat)) (f : Nat) (rest : List Nat),
    canonL xs = true → encodeL xs = .ok bs → xs ≠ PyList.nil →
    (sepComma bs).length + 2 ≤ f → delimB rest = true →
    parseItems f (sepComma bs ++ 93 :: rest) = some (xs, rest)
  | .nil, _, _, _, _, _, hne, _, _ => absurd rfl hne
  | .cons v t, bs, f, rest, hc, he, _, hf, hd => by
      obtain ⟨bv, bs2, hv, ht, hbs⟩ := encodeL_cons_inv v t bs he
      subst hbs
      have hcv : canonV v = true := (canon_list_head v t hc).1
      have hct : canonL t = true := (canon_list_head v t hc).2
      obtain ⟨b1, tl1, hb1, _⟩ := encHead_ne93 v bv hcv hv
      have hbvlen : 1 ≤ bv.length := by rw [hb1]; simp
      rcases f with _ | f
      · omega
      · rcases t with _ | ⟨v2, t2⟩
        · have hbs2 : bs2 = [] := by
            simp only [encodeL, Except.ok.injEq] at ht
            exact ht.symm
          subst hbs2
          rw [show sepComma [bv] = bv from rfl] at hf ⊢
          have hpv := rt_val v bv f (93 :: rest) hcv hv (by omega) rfl
          simp only [parseItems]
          rw [hpv]
          simp
        · obtain ⟨bv2, bs3, hv2, ht3, hbs2⟩ := encodeL_cons_inv v2 t2 bs2 ht
          subst hbs2
          rw [sepComma_cons2 bv bv2 bs3] at hf ⊢
          simp only [List.length_append, List.length_cons] at hf
          simp only [List.append_assoc, List.cons_append]
          have hpv := rt_val v bv f (44 :: (sepComma (bv2 :: bs3) ++ 93 :: rest)) hcv hv
            (by omega) rfl
          have hit := rt_items (.cons v2 t2) (bv2 :: bs3) f rest hct ht
            (by intro hx; exact PyList.noConfusion hx) (by omega) hd
          simp only [parseItems]
          rw [hpv]
          simp [hit]
/-- Round trip for the members of a nonempty object. -/
theorem rt_fields : ∀ (kvs : PyFields) (ps : List (String × List Nat)) (f : Nat)
    (rest : List Nat),
    canonF kvs = true → encodeF kvs = .ok ps → kvs ≠ PyFields.nil →
    (renderFields ps).length + 2 ≤ f → delimB rest = true →
    parseFieldsQ f (renderFields ps ++ 125 :: rest) = some (kvs, rest)
  | .nil, _, _, _, _, _, hne, _, _ => absurd rfl hne
  | .cons k v t, ps, f, rest, hc, he, _, hf, hd => by
      obtain ⟨bv, ps2, hv, ht, hps⟩ := encodeF_cons_inv k v t ps he
      subst hps
      have hcv : canonV v = true := (canon_fields_head k v t hc).1
      have hct : canonF t = true := (canon_fields_head k v t hc).2
      obtain ⟨b1, tl1, hb1, _⟩ := encHead_ne93 v bv hcv hv
      have hbvlen : 1 ≤ bv.length := by rw [hb1]; simp
      rcases f with _ | f
      · omega
      · rcases t with _ | ⟨k2, v2, t2⟩
        · have hps2 : ps2 = [] := by
            simp only [encodeF, Except.ok.injEq] at ht
            exact ht.symm
          subst hps2
          rw [renderFields_one] at hf ⊢
          simp only [List.length_append, List.length_cons, strBytes_length] at hf
          simp only [strBytes, List.cons_append, List.append_assoc, List.singleton_append,
            List.nil_append]
          have hstr := parseStrAux_flat k.data
            (((k.data.map escByte).flatten ++ 34 :: 58 :: (bv ++ 125 :: rest)).length + 1) []
            (58 :: (bv ++ 125 :: rest))
            (by
              have h1 := length_le_flat k.data
              simp only [List.length_append, List.length_cons]
              omega)
          simp only [List.reverse_nil, List.nil_append] at hstr
          have hpv := rt_val v bv f (125 :: rest) hcv hv (by omega) rfl
          simp only [parseFieldsQ]
          rw [hstr]
          simp [hpv]
        · obtain ⟨bv2, ps3, hv2, ht3, hps2⟩ := encodeF_cons_inv k2 v2 t2 ps2 ht
          subst hps2
          rw [renderFields_cons2] at hf ⊢
          simp only [List.length_append, List.length_cons, strBytes_length] at hf
          simp only [strBytes, List.cons_append, List.append_assoc, List.singleton_append,
            List.nil_append]
          have hstr := parseStrAux_flat k.data
            (((k.data.map escByte).flatten ++
              34 :: 58 :: (bv ++ 44 :: (renderFields ((k2, bv2) :: ps3) ++ 125 :: rest))).length
              + 1) []
            (58 :: (bv ++ 44 :: (renderFields ((k2, bv2) :: ps3) ++ 125 :: rest)))
            (by
              have h1 := length_le_flat k.data
              simp only [List.length_append, List.length_cons]
              omega)
          simp only [List.reverse_nil, List.nil_append] at hstr
          have hpv := rt_val v bv f
            (44 :: (renderFields ((k2, bv2) :: ps3) ++ 125 :: rest)) hcv hv (by omega) rfl
          have hfl := rt_fields (.cons k2 v2 t2) ((k2, bv2) :: ps3) f rest hct ht
            (by intro hx; exact PyFields.noConfusion hx) (by omega) hd
          simp only [parseFieldsQ]
          rw [hstr]
          simp [hpv, hfl]
end

/-- C6: the canonical encoding is injective over the supported value set — for
every two distinct canonical values (null, booleans, integers, finite floats,
strings, lists, string-keyed dicts with strictly sorted keys),
`orjson.dumps(·, OPT_SORT_KEYS)` produces distinct byte sequences. -/
theorem c6_canonical_encoding_injective (v w : PyVal) (bv bw : List Nat)
    (hcv : canonV v = true) (hcw : canonV w = true)
    (hv : encodeV v = .ok bv) (hw : encodeV w = .ok bw) (hne : v ≠ w) : bv ≠ bw := by
  intro heq
  subst heq
  have h1 := rt_val v bv (bv.length + 1) [] hcv hv (Nat.le_refl _) rfl
  have h2 := rt_val w bv (bv.length + 1) [] hcw hw (Nat.le_refl _) rfl
  rw [h1] at h2
  simp only [Option.some.injEq, Prod.mk.injEq] at h2
  exact hne h2.1

/-- Counterexample to the original C7 claim: a `details` payload containing a
non-finite float (`NaN`) does NOT make `log_event` signal an encoding error —
orjson serializes non-finite floats as `null`, so the call succeeds, a line is
appended to the file, and the encoded payload is byte-identical to the one with
the value silently replaced by `null`. -/
theorem c7_nonfinite_counterexample :
    isOkE (log_event ⟨"", 0, true, true, true⟩
      ⟨"r", "", "ok", .cons "x" .nanVal .nil, none, none, none⟩ initAgent initSys).1 = true ∧
    (fileFor (log_event ⟨"", 0, true, true, true⟩
      ⟨"r", "", "ok", .cons "x" .nanVal .nil, none, none, none⟩
      initAgent initSys).2.2 "r").length = 1 ∧
    encodeV (.dict (.cons "x" .nanVal .nil)) = encodeV (.dict (.cons "x" .null .nil)) :=
  ⟨rfl, rfl, rfl⟩

theorem c1_chain_linkage_witness :
    (∀ r ∈ (runSeq [⟨⟨"", 0, true, true, true⟩, ⟨"r", "", "ok", .nil, none, none, none⟩⟩,
        ⟨⟨"", 0, true, true, true⟩, ⟨"r", "", "ok", .nil, none, none, none⟩⟩]
        initAgent initSys).1, isOkE r.2 = true) ∧
    (okEventsOf (runSeq [⟨⟨"", 0, true, true, true⟩, ⟨"r", "", "ok", .nil, none, none, none⟩⟩,
        ⟨⟨"", 0, true, true, true⟩, ⟨"r", "", "ok", .nil, none, none, none⟩⟩]
        initAgent initSys).1).length = 2 ∧
    ((okEventsOf (runSeq [⟨⟨"", 0, true, true, true⟩, ⟨"r", "", "ok", .nil, none, none, none⟩⟩,
        ⟨⟨"", 0, true, true, true⟩, ⟨"r", "", "ok", .nil, none, none, none⟩⟩]
        initAgent initSys).1).getD 0 dummyEvent).prev_event_hash = "" ∧
    ∀ i, 0 < i →
      i < (okEventsOf (runSeq [⟨⟨"", 0, true, true, true⟩,
          ⟨"r", "", "ok", .nil, none, none, none⟩⟩,
        ⟨⟨"", 0, true, true, true⟩, ⟨"r", "", "ok", .nil, none, none, none⟩⟩]
        initAgent initSys).1).length →
      ((okEventsOf (runSeq [⟨⟨"", 0, true, true, true⟩,
          ⟨"r", "", "ok", .nil, none, none, none⟩⟩,
        ⟨⟨"", 0, true, true, true⟩, ⟨"r", "", "ok", .nil, none, none, none⟩⟩]
        initAgent initSys).1).getD i dummyEvent).prev_event_hash =
      ((okEventsOf (runSeq [⟨⟨"", 0, true, true, true⟩,
          ⟨"r", "", "ok", .nil, none, none, none⟩⟩,
        ⟨⟨"", 0, true, true, true⟩, ⟨"r", "", "ok", .nil, none, none, none⟩⟩]
        initAgent initSys).1).getD (i - 1) dummyEvent).event_hash :=
  c1_chain_linkage "r"
    [⟨⟨"", 0, true, true, true⟩, ⟨"r", "", "ok", .nil, none, none, none⟩⟩,
     ⟨⟨"", 0, true, true, true⟩, ⟨"r", "", "ok", .nil, none, none, none⟩⟩]
    initAgent initSys (by decide) (by decide) rfl rfl

theorem c2_event_hash_digest_witness :
    (∃ pb, encodeV (payloadOf ⟨"r", "", "ok", "", 0, none, none, [], .nil, "",
        "b7db27192ef62786e2ecf7288994fd8432e34520a871ee0672f648f051476f1d"⟩) = .ok pb ∧
      "b7db27192ef62786e2ecf7288994fd8432e34520a871ee0672f648f051476f1d" =
        sha256_bytes (utf8 "" ++ pb)) ∧
    (∀ h2 : String, payloadOf ⟨"r", "", "ok", "", 0, none, none, [], .nil, "", h2⟩ =
      payloadOf ⟨"r", "", "ok", "", 0, none, none, [], .nil, "",
        "b7db27192ef62786e2ecf7288994fd8432e34520a871ee0672f648f051476f1d"⟩) :=
  c2_event_hash_digest ⟨"", 0, true, true, true⟩ ⟨"r", "", "ok", .nil, none, none, none⟩
    initAgent initSys
    ⟨"r", "", "ok", "", 0, none, none, [], .nil, "",
      "b7db27192ef62786e2ecf7288994fd8432e34520a871ee0672f648f051476f1d"⟩
    ⟨[("r", "b7db27192ef62786e2ecf7288994fd8432e34520a871ee0672f648f051476f1d")]⟩
    ⟨[("r", [⟨"r", "", "ok", "", 0, none, none, [], .nil, "",
      "b7db27192ef62786e2ecf7288994fd8432e34520a871ee0672f648f051476f1d"⟩])],
     ⟨[(0, rowOf ⟨"r", "", "ok", "", 0, none, none, [], .nil, "",
      "b7db27192ef62786e2ecf7288994fd8432e34520a871ee0672f648f051476f1d"⟩)], 1⟩⟩
    rfl

theorem c3_verify_round_trip_witness :
    (verify_chain (fileFor (runSeq [⟨⟨"", 0, true, true, true⟩,
        ⟨"r", "", "ok", .nil, none, none, none⟩⟩,
      ⟨⟨"", 0, true, true, true⟩, ⟨"r", "", "ok", .nil, none, none, none⟩⟩]
      initAgent initSys).2.2 "r")).events = 2 ∧
    (verify_chain (fileFor (runSeq [⟨⟨"", 0, true, true, true⟩,
        ⟨"r", "", "ok", .nil, none, none, none⟩⟩,
      ⟨⟨"", 0, true, true, true⟩, ⟨"r", "", "ok", .nil, none, none, none⟩⟩]
      initAgent initSys).2.2 "r")).valid = true ∧
    (verify_chain (fileFor (runSeq [⟨⟨"", 0, true, true, true⟩,
        ⟨"r", "", "ok", .nil, none, none, none⟩⟩,
      ⟨⟨"", 0, true, true, true⟩, ⟨"r", "", "ok", .nil, none, none, none⟩⟩]
      initAgent initSys).2.2 "r")).break_index = none ∧
    verify_chain [] = ⟨none, 0, true, none⟩ :=
  c3_verify_round_trip "r"
    [⟨⟨"", 0, true, true, true⟩, ⟨"r", "", "ok", .nil, none, none, none⟩⟩,
     ⟨⟨"", 0, true, true, true⟩, ⟨"r", "", "ok", .nil, none, none, none⟩⟩]
    initAgent initSys (by decide) rfl rfl rfl

theorem c4_restart_recovery_witness :
    ("h0" : String) =
      (get_last_audit_hash (⟨[(0, ⟨"r", "", "", "", 0, none, none, "", "h0", [123, 125]⟩)],
        1⟩ : DBState) "r").getD "" ∧
    ("h0" : String) =
      ((rowsDataFor (⟨[(0, ⟨"r", "", "", "", 0, none, none, "", "h0", [123, 125]⟩)],
        1⟩ : DBState) "r").getLast?.map (fun r => r.event_hash)).getD "" :=
  c4_restart_recovery ⟨"", 0, true, true, true⟩ ⟨"r", "", "ok", .nil, none, none, none⟩
    initAgent ⟨[], ⟨[(0, ⟨"r", "", "", "", 0, none, none, "", "h0", [123, 125]⟩)], 1⟩⟩
    ⟨"r", "", "ok", "", 0, none, none, [], .nil, "h0",
      "53d25807911f8ece9a897c058b365c66f0e87d76cedb4bb10b13426ee15089d2"⟩
    ⟨[("r", "53d25807911f8ece9a897c058b365c66f0e87d76cedb4bb10b13426ee15089d2")]⟩
    ⟨[("r", [⟨"r", "", "ok", "", 0, none, none, [], .nil, "h0",
      "53d25807911f8ece9a897c058b365c66f0e87d76cedb4bb10b13426ee15089d2"⟩])],
     ⟨[(0, ⟨"r", "", "", "", 0, none, none, "", "h0", [123, 125]⟩),
       (1, rowOf ⟨"r", "", "ok", "", 0, none, none, [], .nil, "h0",
        "53d25807911f8ece9a897c058b365c66f0e87d76cedb4bb10b13426ee15089d2"⟩)], 2⟩⟩
    rfl (by decide) (by decide) rfl

theorem c5_tamper_break_index_witness :
    (∀ i, isFirstBad [dummyEvent] i →
      (verify_chain [dummyEvent]).valid = false ∧
      (verify_chain [dummyEvent]).break_index = some i) ∧
    (∀ i x, (verify_chain [dummyEvent]).valid = true →
      i < ([dummyEvent] : List AuditEvent).length →
      x ≠ (([dummyEvent] : List AuditEvent).getD i dummyEvent).prev_event_hash →
      (verify_chain (([dummyEvent] : List AuditEvent).set i
        (withPrev (([dummyEvent] : List AuditEvent).getD i dummyEvent) x))).valid = false ∧
      (verify_chain (([dummyEvent] : List AuditEvent).set i
        (withPrev (([dummyEvent] : List AuditEvent).getD i dummyEvent) x))).break_index =
        some i) :=
  c5_tamper_break_index [dummyEvent] (by decide)

theorem c6_canonical_encoding_injective_witness :
    ([49, 46, 48] : List Nat) ≠ [49] :=
  c6_canonical_encoding_injective (.float ⟨false, [49], [48], false, []⟩) (.int 1)
    [49, 46, 48] [49] rfl rfl rfl rfl (by decide)

theorem c7_unserializable_aborts_before_write_witness :
    log_event ⟨"", 0, true, true, true⟩
      ⟨"r", "", "", .cons "x" (.unsupported "object") .nil, none, none, none⟩
      initAgent initSys = (.error .encoding, initAgent, initSys) :=
  c7_unserializable_aborts_before_write ⟨"", 0, true, true, true⟩
    ⟨"r", "", "", .cons "x" (.unsupported "object") .nil, none, none, none⟩
    initAgent initSys rfl rfl

theorem c8_recovery_error_witness :
    log_event ⟨"", 0, false, true, true⟩ ⟨"r", "", "ok", .nil, none, none, none⟩
      initAgent initSys = (.error .recovery, initAgent, initSys) :=
  c8_recovery_error ⟨"", 0, false, true, true⟩ ⟨"r", "", "ok", .nil, none, none, none⟩
    initAgent initSys rfl rfl

theorem c10_failed_call_cache_unchanged_witness :
    initAgent = initAgent ∧ initSys.db = initSys.db ∧
    resolve_prev_hash ⟨"", 0, false, true, true⟩ initAgent initSys "r" =
      resolve_prev_hash ⟨"", 0, false, true, true⟩ initAgent initSys "r" :=
  c10_failed_call_cache_unchanged ⟨"", 0, false, true, true⟩
    ⟨"r", "", "ok", .nil, none, none, none⟩ initAgent initSys .recovery initAgent initSys rfl

end AuditCore
